import Mathlib

set_option maxHeartbeats 1000000

/-!
Verification of the KCL front-end parser (crate `compiler`, entry `cli`).

The development is a shallow embedding of `src/compiler/src/parser/implementations.rs`
together with the pieces of `nom` 7 and `nom_locate` that the code uses.  The
important faithfulness points:

* `Input` models `nom_locate::LocatedSpan<&str>`: the not-yet-consumed fragment,
  the byte offset of the fragment inside the original buffer and the 1-based line
  number.  Slicing advances the offset and the line count, exactly as the `Slice`
  implementation of `LocatedSpan` does.  The model keeps the consumed prefix
  (`before`) so the offset and the UTF-8 column can be computed; `LocatedSpan`
  recovers the same data from the raw buffer pointer.
* `PResult` models `nom::IResult` with `VerboseError`: success carries the
  remaining input, errors and failures carry the accumulated list of
  `(input, VerboseErrorKind)` pairs.  `Incomplete` is omitted: the code uses only
  `complete` parsers, which never produce it.  Nothing in the grammar creates a
  `failure` (there is no `cut`), but the constructor is kept so that `alt`
  treats it exactly as `nom` does.
* Character classification: `nom_unicode` uses Rust's Unicode-aware
  `char::is_alphabetic` / digits.  The model restricts the classes to the ASCII
  range (every input appearing in the verified claims is ASCII).
* Recursion through `Expression` is bounded by a step index ("fuel") that
  strictly decreases at every recursive entry into the expression grammar.
  Every production consumes at least one scalar before re-entering the
  expression grammar, so starting the index above the remaining input length
  (as the entry points below do) it can never reach zero; the indexed function
  therefore coincides with the Rust recursion.
-/

/-- Rust `char::is_alphabetic`, restricted to the ASCII range (see header). -/
def isAlphabetic (c : Char) : Bool := c.isAlpha

/-- Rust `char::is_alphanumeric`, restricted to the ASCII range. -/
def isAlphanumeric (c : Char) : Bool := c.isAlpha || c.isDigit

/-- Characters matched by `nom::character::complete::multispace0`. -/
def isMultispace (c : Char) : Bool := c = ' ' || c = '\t' || c = '\r' || c = '\n'

/-- Model of `nom_locate::LocatedSpan<&str>`: `frag` is the remaining input
(`fragment()`), `before` the already-consumed prefix of the original buffer
(recovered by `LocatedSpan` through pointer arithmetic), `line` the 1-based
line number of the start of `frag`. -/
structure Input where
  before : List Char
  frag : List Char
  line : Nat
deriving DecidableEq, Repr

namespace Input

/-- `Input::new`: whole source, offset 0, line 1. -/
def new (s : String) : Input := ⟨[], s.data, 1⟩

/-- `LocatedSpan::location_offset`: byte offset of the fragment in the buffer. -/
def offset (i : Input) : Nat := i.before.foldl (fun a c => a + c.utf8Size) 0

/-- `LocatedSpan::get_utf8_column`: 1-based column of the fragment start,
counted in Unicode scalar values since the last newline. -/
def utf8Column (i : Input) : Nat :=
  (i.before.reverse.takeWhile (fun c => c ≠ '\n')).length + 1

/-- Slicing a `LocatedSpan`: consume `n` scalar values from the front; the line
count grows by the number of newlines consumed. -/
def advance (i : Input) (n : Nat) : Input :=
  { before := i.before ++ i.frag.take n
    frag := i.frag.drop n
    line := i.line + ((i.frag.take n).filter (fun c => c = '\n')).length }

/-- The sub-span of length `n` starting at `i` (used by `recognize` and by the
parsers that return the text they matched). -/
def span (i : Input) (n : Nat) : Input :=
  { before := i.before, frag := i.frag.take n, line := i.line }

end Input

/-- `nom::error::ErrorKind` (only the variants this grammar can produce). -/
inductive NomKind where
  | tag | mapRes | alt | many0 | many1 | oneOf | eof | alpha | separatedList
deriving DecidableEq, Repr

/-- `nom::error::VerboseErrorKind`. -/
inductive ErrKind where
  | context (s : String)
  | char (c : Char)
  | nom (k : NomKind)
deriving DecidableEq, Repr

/-- The error list of `nom::error::VerboseError`, innermost entry first. -/
abbrev VError := List (Input × ErrKind)

/-- `nom::IResult` with `VerboseError` (no `Incomplete`: complete parsers). -/
inductive PResult (α : Type) where
  | ok : Input → α → PResult α
  | error : VError → PResult α
  | failure : VError → PResult α
deriving Repr

/-- True on `error` and `failure` (`Result::is_err` after `finish()`). -/
def PResult.isErr {α : Type} : PResult α → Bool
  | .ok _ _ => false
  | .error _ => true
  | .failure _ => true

/-- A parser in the sense of the `Parser` trait: input to `IResult`. -/
abbrev P (α : Type) := Input → PResult α

/-- `nom::combinator::map`. -/
def pmap {α β : Type} (p : P α) (f : α → β) : P β := fun i =>
  match p i with
  | .ok r a => .ok r (f a)
  | .error e => .error e
  | .failure e => .failure e

/-- `nom::combinator::map_res`; the message of a rejected value is discarded and
replaced by `ErrorKind::MapRes` at the original input, as in `nom`. -/
def pmapRes {α β : Type} (p : P α) (f : α → Except String β) : P β := fun i =>
  match p i with
  | .ok r a =>
    match f a with
    | .ok b => .ok r b
    | .error _ => .error [(i, .nom .mapRes)]
  | .error e => .error e
  | .failure e => .failure e

/-- `nom::error::context`: on failure push `(input, Context name)` onto the end
of the error list (`VerboseError::add_context`). -/
def pcontext {α : Type} (name : String) (p : P α) : P α := fun i =>
  match p i with
  | .ok r a => .ok r a
  | .error e => .error (e ++ [(i, .context name)])
  | .failure e => .failure (e ++ [(i, .context name)])

/-- `nom::sequence::tuple` for two parsers; larger tuples are nested pairs. -/
def pthen {α β : Type} (p : P α) (q : P β) : P (α × β) := fun i =>
  match p i with
  | .ok r a =>
    match q r with
    | .ok r2 b => .ok r2 (a, b)
    | .error e => .error e
    | .failure e => .failure e
  | .error e => .error e
  | .failure e => .failure e

/-- `nom::sequence::preceded`. -/
def ppreceded {α β : Type} (p : P α) (q : P β) : P β :=
  pmap (pthen p q) Prod.snd

/-- `nom::sequence::terminated`. -/
def pterminated {α β : Type} (p : P α) (q : P β) : P α :=
  pmap (pthen p q) Prod.fst

/-- `nom::sequence::delimited`. -/
def pdelimited {α β γ : Type} (p : P α) (q : P β) (r : P γ) : P β :=
  pmap (pthen p (pthen q r)) (fun x => x.2.1)

/-- `nom::sequence::separated_pair`. -/
def psepPair {α β γ : Type} (p : P α) (sep : P β) (q : P γ) : P (α × γ) :=
  pmap (pthen p (pthen sep q)) (fun x => (x.1, x.2.2))

/-- `nom::character::complete::char` (`one_char` in the source): on mismatch the
error entry is `VerboseErrorKind::Char(c)` at the current input. -/
def pchar (c : Char) : P Char := fun i =>
  match i.frag with
  | [] => .error [(i, .char c)]
  | d :: _ => if d = c then .ok (i.advance 1) c else .error [(i, .char c)]

/-- `nom::character::complete::newline` is `char('\n')`. -/
def pnewline : P Char := pchar '\n'

/-- `nom::bytes::complete::tag`: exact string match, `ErrorKind::Tag` otherwise;
returns the matched sub-span. -/
def ptag (s : String) : P Input := fun i =>
  if s.data.isPrefixOf i.frag then
    .ok (i.advance s.data.length) (i.span s.data.length)
  else .error [(i, .nom .tag)]

/-- `nom::character::complete::one_of`: a single character from the set. -/
def poneOf (s : String) : P Char := fun i =>
  match i.frag with
  | [] => .error [(i, .nom .oneOf)]
  | c :: _ => if c ∈ s.data then .ok (i.advance 1) c
              else .error [(i, .nom .oneOf)]

/-- `nom_unicode::complete::alpha1`: one or more alphabetic scalars,
`ErrorKind::Alpha` when the very first one is missing. -/
def palpha1 : P Input := fun i =>
  let t := i.frag.takeWhile isAlphabetic
  if t.isEmpty then .error [(i, .nom .alpha)]
  else .ok (i.advance t.length) (i.span t.length)

/-- `nom_unicode::complete::alphanumeric0`: zero or more alphanumeric scalars,
never fails. -/
def palphanumeric0 : P Input := fun i =>
  let t := i.frag.takeWhile isAlphanumeric
  .ok (i.advance t.length) (i.span t.length)

/-- `nom::character::complete::multispace0`: zero or more of space, tab, CR, LF;
never fails. -/
def pmultispace0 : P Input := fun i =>
  let t := i.frag.takeWhile isMultispace
  .ok (i.advance t.length) (i.span t.length)

/-- `nom::combinator::recognize`: run the parser, return the consumed sub-span. -/
def precognize {α : Type} (p : P α) : P Input := fun i =>
  match p i with
  | .ok r _ => .ok r (i.span (i.frag.length - r.frag.length))
  | .error e => .error e
  | .failure e => .failure e

/-- `nom::combinator::all_consuming`: succeed only when the inner parser
consumed everything; otherwise `ErrorKind::Eof` at the remaining input. -/
def pallConsuming {α : Type} (p : P α) : P α := fun i =>
  match p i with
  | .ok r a => if r.frag.isEmpty then .ok r a else .error [(r, .nom .eof)]
  | .error e => .error e
  | .failure e => .failure e

/-- `nom::branch::alt`: try the alternatives left to right; a recoverable error
moves on to the next one (keeping, per `VerboseError::or`, only the most recent
error list); a `failure` is returned as-is; when everything failed, push
`ErrorKind::Alt` at the original input onto the last error list. -/
def paltGo {α : Type} (i : Input) : List (P α) → VError → PResult α
  | [], acc => .error (acc ++ [(i, .nom .alt)])
  | p :: ps, _ =>
    match p i with
    | .ok r a => .ok r a
    | .failure e => .failure e
    | .error e => paltGo i ps e

/-- Entry point of the `alt` model. -/
def palt {α : Type} (ps : List (P α)) : P α := fun i => paltGo i ps []

/-- Loop of `nom::multi::many0`.  The step index starts above the remaining
length; since the loop aborts (`ErrorKind::Many0`) whenever an iteration does
not consume, the index can never reach zero, and the fallback mirrors the
"stop on error" exit. -/
def pmany0Go {α : Type} (p : P α) : Nat → Input → List α → PResult (List α)
  | 0, i, acc => .ok i acc.reverse
  | fuel + 1, i, acc =>
    match p i with
    | .error _ => .ok i acc.reverse
    | .failure e => .failure e
    | .ok i1 a =>
      if i1.frag.length = i.frag.length then .error [(i, .nom .many0)]
      else pmany0Go p fuel i1 (a :: acc)

/-- `nom::multi::many0`. -/
def pmany0 {α : Type} (p : P α) : P (List α) := fun i =>
  pmany0Go p (i.frag.length + 1) i []

/-- Loop of `nom::multi::many1` after the first element. -/
def pmany1Go {α : Type} (p : P α) : Nat → Input → List α → PResult (List α)
  | 0, i, acc => .ok i acc.reverse
  | fuel + 1, i, acc =>
    match p i with
    | .error _ => .ok i acc.reverse
    | .failure e => .failure e
    | .ok i1 a =>
      if i1.frag.length = i.frag.length then .error [(i, .nom .many1)]
      else pmany1Go p fuel i1 (a :: acc)

/-- `nom::multi::many1`: the error of a failing first element is wrapped with
`ErrorKind::Many1` at the original input. -/
def pmany1 {α : Type} (p : P α) : P (List α) := fun i =>
  match p i with
  | .error e => .error (e ++ [(i, .nom .many1)])
  | .failure e => .failure e
  | .ok i1 a => pmany1Go p i1.frag.length i1 [a]

/-- Loop of `nom::multi::separated_list0` after the first element: separator
then element; a non-consuming separator aborts with `ErrorKind::SeparatedList`. -/
def psepGo {α β : Type} (sep : P β) (p : P α) : Nat → Input → List α → PResult (List α)
  | 0, i, acc => .ok i acc.reverse
  | fuel + 1, i, acc =>
    match sep i with
    | .error _ => .ok i acc.reverse
    | .failure e => .failure e
    | .ok i1 _ =>
      if i1.frag.length = i.frag.length then .error [(i1, .nom .separatedList)]
      else
        match p i1 with
        | .error _ => .ok i acc.reverse
        | .failure e => .failure e
        | .ok i2 a => psepGo sep p fuel i2 (a :: acc)

/-- `nom::multi::separated_list0`. -/
def psepList0 {α β : Type} (sep : P β) (p : P α) : P (List α) := fun i =>
  match p i with
  | .error _ => .ok i []
  | .failure e => .failure e
  | .ok i1 a => psepGo sep p i1.frag.length i1 [a]

/-- The `bracketed` utility combinator of `implementations.rs`: a literal `(`,
the child parser, then a literal `)`. -/
def pbracketed {α : Type} (child : P α) : P α :=
  pmap (pthen (pchar '(') (pthen child (pchar ')'))) (fun x => x.2.1)

/-- `ast.rs`: `Identifier` wraps the located span of its text (`Identifier(pub Input)`). -/
structure Identifier where
  span : Input
deriving DecidableEq, Repr

/-- `Display for Identifier` delegates to the span, which displays its fragment. -/
def Identifier.display (id : Identifier) : String := String.mk id.span.frag

/-- The derived `PartialEq` of `Identifier`, i.e. `nom_locate`'s `PartialEq` for
`LocatedSpan`: line, offset and fragment are compared (the column is not stored). -/
def Identifier.speq (a b : Identifier) : Bool :=
  a.span.line == b.span.line && a.span.offset == b.span.offset
    && a.span.frag == b.span.frag

/-- `Identifier::from_span` of the test helpers: a raw span from a fragment,
offset and line.  The consumed prefix is only constrained by its byte length. -/
def Identifier.fromSpan (fragment : String) (offset line : Nat) : Identifier :=
  ⟨⟨List.replicate offset ' ', fragment.data, line⟩⟩

/-- `ast.rs`: binary operators. -/
inductive Operator where
  | add | sub | mul | div
deriving DecidableEq, Repr

/-- `ast.rs`: `Parameter { name, kcl_type }`. -/
structure Parameter where
  name : Identifier
  kclType : Identifier
deriving DecidableEq, Repr

mutual

/-- `ast.rs`: the `Expression` sum type. -/
inductive Expression where
  | number (n : Nat)
  | fnInvocation (fi : FnInvocation)
  | name (id : Identifier)
  | letIn (bindings : List Assignment) (body : Expression)
  | arithmetic (lhs : Expression) (op : Operator) (rhs : Expression)

/-- `ast.rs`: `FnInvocation { fn_name, args }`. -/
inductive FnInvocation where
  | mk (fnName : Identifier) (args : List Expression)

/-- `ast.rs`: `Assignment { identifier, value }`. -/
inductive Assignment where
  | mk (identifier : Identifier) (value : Expression)

end

/-- Field accessor for `FnInvocation.fn_name`. -/
def FnInvocation.fnName : FnInvocation → Identifier
  | .mk n _ => n

/-- Field accessor for `FnInvocation.args`. -/
def FnInvocation.args : FnInvocation → List Expression
  | .mk _ a => a

/-- Field accessor for `Assignment.identifier`. -/
def Assignment.identifier : Assignment → Identifier
  | .mk n _ => n

/-- Field accessor for `Assignment.value`. -/
def Assignment.value : Assignment → Expression
  | .mk _ v => v

/-- `ast.rs`: `FnDef { fn_name, params, return_type, body }`. -/
structure FnDef where
  fnName : Identifier
  params : List Parameter
  returnType : Identifier
  body : Expression

/-- `ast.rs`: a program is a list of function definitions. -/
structure AbstractSyntaxTree where
  functions : List FnDef

/-- `implementations.rs`: the reserved keyword list. -/
def RESERVED_KEYWORDS : List String := ["let", "in"]

/-- `Identifier::parse_maybe_reserved`: `recognize(preceded(alpha1, alphanumeric0))`
mapped into `Identifier`. -/
def Identifier.parseMaybeReserved : P Identifier :=
  pmap (precognize (ppreceded palpha1 palphanumeric0)) Identifier.mk

/-- `Identifier::parse`: the shape rule of `parse_maybe_reserved` followed by the
reserved-keyword rejection inside `map_res`, under the "identifier" context. -/
def Identifier.parse : P Identifier :=
  pcontext "identifier"
    (pmapRes Identifier.parseMaybeReserved (fun id =>
      if RESERVED_KEYWORDS.any (fun kw => kw.data == id.span.frag) then
        .error "reserved keyword"
      else .ok id))

/-- `Parameter::parse`: `identifier ": " identifier`, context "parameter". -/
def Parameter.parse : P Parameter :=
  pcontext "parameter"
    (pmap (psepPair Identifier.parse (ptag ": ") Identifier.parse)
      (fun x => ⟨x.1, x.2⟩))

/-- `Operator::parse`: one of `+ - * /` mapped to the enum (the `dbg!` trace in
the source is a side effect with no bearing on the result), context "operator". -/
def Operator.parse : P Operator :=
  pcontext "operator"
    (pmapRes (palt [pchar '+', pchar '-', pchar '*', pchar '/'])
      (fun symbol =>
        match symbol with
        | '+' => .ok Operator.add
        | '-' => .ok Operator.sub
        | '*' => .ok Operator.mul
        | '/' => .ok Operator.div
        | _ => .error "Invalid operator"))

/-- The unsigned integer denoted by a list of ASCII digits. -/
def natOfDigits (digits : List Char) : Nat :=
  digits.foldl (fun a c => a * 10 + (c.toNat - 48)) 0

/-- Rust `str::parse::<u64>` on a string of ASCII digits: fails on the empty
string and on values past `u64::MAX` (intermediate overflow of the checked
fold and a final value of at least `2^64` coincide for digit strings). -/
def parseU64 (digits : List Char) : Except String Nat :=
  if digits.isEmpty then .error "cannot parse integer from empty string"
  else
    if natOfDigits digits < 2 ^ 64 then .ok (natOfDigits digits)
    else .error "number too large to fit in target type"

/-- `Expression::parse_num`: one or more of `{0-9, _}`; underscores filtered out,
the rest parsed as `u64`; context "number". -/
def Expression.parseNum : P Expression :=
  pcontext "number"
    (pmapRes (pmany1 (poneOf "0123456789_")) (fun chars =>
      match parseU64 (chars.filter Char.isDigit) with
      | .ok n => .ok (Expression.number n)
      | .error e => .error e))

/-- `Expression::parse_arithmetic` with the expression sub-parser abstracted:
`bracketed(expression, delimited(' ', operator, ' '), expression)`,
context "arithmetic". -/
def arithmeticP (pexp : P Expression) : P Expression :=
  pcontext "arithmetic"
    (pmap (pbracketed (pthen pexp
            (pthen (pdelimited (pchar ' ') Operator.parse (pchar ' ')) pexp)))
      (fun x => Expression.arithmetic x.1 x.2.1 x.2.2))

/-- `Assignment::parse` with the expression sub-parser abstracted:
`identifier " = " expression`, context "assignment". -/
def assignmentP (pexp : P Expression) : P Assignment :=
  pcontext "assignment"
    (pmap (pthen Identifier.parse (pthen (ptag " = ") pexp))
      (fun x => Assignment.mk x.1 x.2.2))

/-- `Expression::parse_let_in` with the expression sub-parser abstracted:
`let`, newline, one or more `(multispace0, assignment, newline)` groups,
`multispace0 "in" multispace0`, body expression; context "let-in". -/
def letInP (pexp : P Expression) : P Expression :=
  pcontext "let-in"
    (pmap (pthen (ptag "let")
            (pthen pnewline
              (pthen (pmany1 (pthen pmultispace0
                               (pthen (assignmentP pexp) pnewline)))
                (pthen (pterminated (ppreceded pmultispace0 (ptag "in"))
                         pmultispace0)
                  pexp))))
      (fun x =>
        Expression.letIn (x.2.2.1.map (fun g => g.2.1)) x.2.2.2.2))

/-- `FnInvocation::parse` with the expression sub-parser abstracted:
`identifier "(" separated_list0(", ", expression) ")"`,
context "function invocation". -/
def fnInvocationP (pexp : P Expression) : P FnInvocation :=
  pcontext "function invocation"
    (pmap (pthen Identifier.parse
            (pthen (pchar '(')
              (pthen (psepList0 (ptag ", ") pexp) (pchar ')'))))
      (fun x => FnInvocation.mk x.1 x.2.2.1))

/-- `Expression::parse`, step-indexed: the five alternatives in the priority
order of the source — arithmetic, number, let-in, function invocation, bare
name — under the "expression" context.  The index decreases at each re-entry
into the expression grammar; every such re-entry happens strictly after at
least one scalar was consumed, so an index above the remaining length never
reaches zero (the index-zero fallback is unreachable from the entry points). -/
def Expression.parseF : Nat → P Expression
  | 0 => fun _ => .error []
  | f + 1 =>
    pcontext "expression"
      (palt [arithmeticP (Expression.parseF f),
             Expression.parseNum,
             letInP (Expression.parseF f),
             pmap (fnInvocationP (Expression.parseF f)) Expression.fnInvocation,
             pmap Identifier.parse Expression.name])

/-- `Expression::parse` entry point: the index starts above the input length. -/
def Expression.parse : P Expression := fun i =>
  Expression.parseF (i.frag.length + 1) i

/-- `Expression::parse_let_in` entry point, at the index used for the let-in
alternative inside `Expression::parse`. -/
def Expression.parseLetIn : P Expression := fun i =>
  letInP (Expression.parseF i.frag.length) i

/-- `FnInvocation::parse` entry point, at the index used for the invocation
alternative inside `Expression::parse`. -/
def FnInvocation.parse : P FnInvocation := fun i =>
  fnInvocationP (Expression.parseF i.frag.length) i

/-- `Assignment::parse` entry point. -/
def Assignment.parse : P Assignment := fun i =>
  assignmentP (Expression.parseF i.frag.length) i

/-- `FnDef::parse` with the expression sub-parser abstracted: function name,
`" = "`, bracketed type signature (parameter list, `" -> "`, return type),
`" =>"` plus whitespace, body; with the contexts of the source. -/
def fnDefP (pexp : P Expression) : P FnDef :=
  pcontext "function definition"
    (pmap (pthen (pcontext "function name" Identifier.parse)
            (pthen (pcontext "= between function name and definition" (ptag " = "))
              (pthen (pcontext "type signature"
                       (pbracketed (pthen
                         (pcontext "parameter list"
                           (psepList0 (ptag ", ") Parameter.parse))
                         (pthen
                           (pcontext "return type arrow ->" (ptag " -> "))
                           Identifier.parse))))
                (pthen (pcontext "=> between function header and body"
                         (pterminated (ptag " =>") pmultispace0))
                  (pcontext "function body" pexp)))))
      (fun x => ⟨x.1, x.2.2.1.1, x.2.2.1.2.2, x.2.2.2.2⟩))

/-- `FnDef::parse` entry point. -/
def FnDef.parse : P FnDef := fun i => fnDefP (Expression.parseF i.frag.length) i

/-- `AbstractSyntaxTree::parse`: `all_consuming(many0(FnDef::parse))` under the
"program root" context; each `FnDef` runs at an index above the remaining
length of any input it can be applied to. -/
def AbstractSyntaxTree.parse : P AbstractSyntaxTree := fun i =>
  pcontext "program root"
    (pmap (pallConsuming (pmany0 (fnDefP (Expression.parseF i.frag.length))))
      AbstractSyntaxTree.mk) i

/-- `displayable_error.rs`: an error entry decorated with line and UTF-8 column. -/
structure DisplayableError where
  input : Input
  error : ErrKind
  line : Nat
  column : Nat
deriving DecidableEq, Repr

/-- `DisplayableError::new`. -/
def DisplayableError.new (input : Input) (error : ErrKind) : DisplayableError :=
  ⟨input, error, input.line, input.utf8Column⟩

/-- `lib.rs`: the `parse` entry point.  On success the remaining input and the
AST; on failure (`finish()` treats `Error` and `Failure` alike) the verbose
error chain mapped to `DisplayableError`s, innermost first. -/
def parse (sourceCode : String) :
    Except (List DisplayableError) (Input × AbstractSyntaxTree) :=
  match AbstractSyntaxTree.parse (Input.new sourceCode) with
  | .ok r a => .ok (r, a)
  | .error e => .error (e.map (fun x => DisplayableError.new x.1 x.2))
  | .failure e => .error (e.map (fun x => DisplayableError.new x.1 x.2))

/-- True on the error side of the entry point result. -/
def Except.isError {ε α : Type} : Except ε α → Bool
  | .ok _ => false
  | .error _ => true

namespace Input

theorem advance_frag (i : Input) (n : Nat) : (i.advance n).frag = i.frag.drop n := rfl

theorem advance_before (i : Input) (n : Nat) :
    (i.advance n).before = i.before ++ i.frag.take n := rfl

theorem advance_frag_length (i : Input) (n : Nat) :
    (i.advance n).frag.length = i.frag.length - n := by
  simp [advance_frag]

theorem advance_zero (i : Input) : i.advance 0 = i := by
  simp [advance]

theorem advance_advance (i : Input) (m n : Nat) :
    (i.advance m).advance n = i.advance (m + n) := by
  unfold advance
  refine Input.mk.injEq _ _ _ _ _ _ ▸ ⟨?_, ?_, ?_⟩
  · simp [List.take_add, List.append_assoc]
  · simp [List.drop_drop, Nat.add_comm]
  · simp [List.take_add, List.filter_append, Nat.add_assoc]

end Input


theorem pmap_ok_iff {α β : Type} (p : P α) (f : α → β) (i r : Input) (b : β) :
    pmap p f i = .ok r b ↔ ∃ a, p i = .ok r a ∧ b = f a := by
  cases h : p i <;> simp [pmap, h] <;> aesop

theorem pmapRes_ok_iff {α β : Type} (p : P α) (f : α → Except String β)
    (i r : Input) (b : β) :
    pmapRes p f i = .ok r b ↔ ∃ a, p i = .ok r a ∧ f a = .ok b := by
  cases h : p i with
  | ok m a => cases h2 : f a <;> simp [pmapRes, h, h2] <;> aesop
  | error e => simp [pmapRes, h]
  | failure e => simp [pmapRes, h]

theorem pcontext_ok_iff {α : Type} (n : String) (p : P α) (i r : Input) (a : α) :
    pcontext n p i = .ok r a ↔ p i = .ok r a := by
  cases h : p i <;> simp [pcontext, h]

theorem pthen_ok_iff {α β : Type} (p : P α) (q : P β) (i r : Input) (x : α × β) :
    pthen p q i = .ok r x ↔
      ∃ m, p i = .ok m x.1 ∧ q m = .ok r x.2 := by
  obtain ⟨x1, x2⟩ := x
  cases h : p i with
  | ok m a => cases h2 : q m <;> simp [pthen, h, h2] <;> aesop
  | error e => simp [pthen, h]
  | failure e => simp [pthen, h]

theorem precognize_ok_iff {α : Type} (p : P α) (i r s : Input) :
    precognize p i = .ok r s ↔
      (∃ a, p i = .ok r a) ∧ s = i.span (i.frag.length - r.frag.length) := by
  cases h : p i <;> simp [precognize, h] <;> aesop

theorem paltGo_ok_mem {α : Type} (i r : Input) (a : α) :
    ∀ (ps : List (P α)) (acc : VError),
      paltGo i ps acc = .ok r a → ∃ p ∈ ps, p i = .ok r a := by
  intro ps
  induction ps with
  | nil => intro acc h; simp [paltGo] at h
  | cons p ps ih =>
    intro acc h
    unfold paltGo at h
    cases h2 : p i with
    | ok r2 a2 =>
      rw [h2] at h
      exact ⟨p, by simp, by simp [h2, ← h]⟩
    | error e =>
      rw [h2] at h
      obtain ⟨q, hq, hq2⟩ := ih e h
      exact ⟨q, by simp [hq], hq2⟩
    | failure e => rw [h2] at h; cases h

theorem palt_ok_mem {α : Type} (ps : List (P α)) (i r : Input) (a : α)
    (h : palt ps i = .ok r a) : ∃ p ∈ ps, p i = .ok r a :=
  paltGo_ok_mem i r a ps [] h

theorem paltGo_step_error {α : Type} (p : P α) (ps : List (P α)) (i : Input)
    (acc e : VError) (h : p i = .error e) :
    paltGo i (p :: ps) acc = paltGo i ps e := by
  simp [paltGo, h]

theorem paltGo_step_ok {α : Type} (p : P α) (ps : List (P α)) (i r : Input)
    (acc : VError) (a : α) (h : p i = .ok r a) :
    paltGo i (p :: ps) acc = .ok r a := by
  simp [paltGo, h]

/-- A parser that never returns the fatal (`Failure`) variant.  Nothing in this
grammar uses `cut`, so every parser below satisfies it. -/
def NoFail {α : Type} (p : P α) : Prop := ∀ i e, p i ≠ .failure e

/-- A parser whose success never grows the remaining input. -/
def Shrinks {α : Type} (p : P α) : Prop :=
  ∀ i r a, p i = .ok r a → r.frag.length ≤ i.frag.length

/-- A parser whose success always consumes at least one scalar. -/
def Consumes {α : Type} (p : P α) : Prop :=
  ∀ i r a, p i = .ok r a → r.frag.length < i.frag.length

theorem noFail_pmap {α β : Type} {p : P α} (hp : NoFail p) (f : α → β) :
    NoFail (pmap p f) := by
  intro i e h
  cases h2 : p i with
  | ok r a => simp [pmap, h2] at h
  | error e2 => simp [pmap, h2] at h
  | failure e2 => exact hp i e2 h2

theorem noFail_pmapRes {α β : Type} {p : P α} (hp : NoFail p)
    (f : α → Except String β) : NoFail (pmapRes p f) := by
  intro i e h
  cases h2 : p i with
  | ok r a => cases h3 : f a <;> simp [pmapRes, h2, h3] at h
  | error e2 => simp [pmapRes, h2] at h
  | failure e2 => exact hp i e2 h2

theorem noFail_pcontext {α : Type} {p : P α} (hp : NoFail p) (n : String) :
    NoFail (pcontext n p) := by
  intro i e h
  cases h2 : p i with
  | ok r a => simp [pcontext, h2] at h
  | error e2 => simp [pcontext, h2] at h
  | failure e2 => exact hp i e2 h2

theorem noFail_pthen {α β : Type} {p : P α} {q : P β} (hp : NoFail p)
    (hq : NoFail q) : NoFail (pthen p q) := by
  intro i e h
  cases h2 : p i with
  | ok r a =>
    cases h3 : q r with
    | ok r2 b => simp [pthen, h2, h3] at h
    | error e2 => simp [pthen, h2, h3] at h
    | failure e2 => exact hq r e2 h3
  | error e2 => simp [pthen, h2] at h
  | failure e2 => exact hp i e2 h2

theorem noFail_ppreceded {α β : Type} {p : P α} {q : P β} (hp : NoFail p)
    (hq : NoFail q) : NoFail (ppreceded p q) :=
  noFail_pmap (noFail_pthen hp hq) _

theorem noFail_pterminated {α β : Type} {p : P α} {q : P β} (hp : NoFail p)
    (hq : NoFail q) : NoFail (pterminated p q) :=
  noFail_pmap (noFail_pthen hp hq) _

theorem noFail_pdelimited {α β γ : Type} {p : P α} {q : P β} {r : P γ}
    (hp : NoFail p) (hq : NoFail q) (hr : NoFail r) :
    NoFail (pdelimited p q r) :=
  noFail_pmap (noFail_pthen hp (noFail_pthen hq hr)) _

theorem noFail_psepPair {α β γ : Type} {p : P α} {sep : P β} {q : P γ}
    (hp : NoFail p) (hs : NoFail sep) (hq : NoFail q) :
    NoFail (psepPair p sep q) :=
  noFail_pmap (noFail_pthen hp (noFail_pthen hs hq)) _

theorem noFail_pchar (c : Char) : NoFail (pchar c) := by
  intro i e h
  cases h2 : i.frag with
  | nil => simp [pchar, h2] at h
  | cons d t => by_cases h3 : d = c <;> simp [pchar, h2, h3] at h

theorem noFail_pnewline : NoFail pnewline := noFail_pchar '\n'

theorem noFail_ptag (s : String) : NoFail (ptag s) := by
  intro i e h
  by_cases h2 : s.data.isPrefixOf i.frag <;> simp [ptag, h2] at h

theorem noFail_poneOf (s : String) : NoFail (poneOf s) := by
  intro i e h
  cases h2 : i.frag with
  | nil => simp [poneOf, h2] at h
  | cons d t => by_cases h3 : d ∈ s.data <;> simp [poneOf, h2, h3] at h

theorem noFail_palpha1 : NoFail palpha1 := by
  intro i e h
  by_cases h2 : (i.frag.takeWhile isAlphabetic).isEmpty <;> simp [palpha1, h2] at h

theorem noFail_palphanumeric0 : NoFail palphanumeric0 := by
  intro i e h
  cases h

theorem noFail_pmultispace0 : NoFail pmultispace0 := by
  intro i e h
  cases h

theorem noFail_precognize {α : Type} {p : P α} (hp : NoFail p) :
    NoFail (precognize p) := by
  intro i e h
  cases h2 : p i with
  | ok r a => simp [precognize, h2] at h
  | error e2 => simp [precognize, h2] at h
  | failure e2 => exact hp i e2 h2

theorem noFail_pallConsuming {α : Type} {p : P α} (hp : NoFail p) :
    NoFail (pallConsuming p) := by
  intro i e h
  cases h2 : p i with
  | ok r a => by_cases h3 : r.frag.isEmpty <;> simp [pallConsuming, h2, h3] at h
  | error e2 => simp [pallConsuming, h2] at h
  | failure e2 => exact hp i e2 h2

theorem noFail_paltGo {α : Type} {ps : List (P α)}
    (hps : ∀ p ∈ ps, NoFail p) (i : Input) :
    ∀ (acc : VError) (e : VError), paltGo i ps acc ≠ .failure e := by
  induction ps with
  | nil => intro acc e h; simp [paltGo] at h
  | cons p ps ih =>
    intro acc e h
    cases h2 : p i with
    | ok r a => simp [paltGo, h2] at h
    | error e2 =>
      rw [paltGo_step_error p ps i acc e2 h2] at h
      exact ih (fun q hq => hps q (by simp [hq])) e2 e h
    | failure e2 => exact hps p (by simp) i e2 h2

theorem noFail_palt {α : Type} {ps : List (P α)} (hps : ∀ p ∈ ps, NoFail p) :
    NoFail (palt ps) := fun i e h => noFail_paltGo hps i [] e h

theorem noFail_pbracketed {α : Type} {p : P α} (hp : NoFail p) :
    NoFail (pbracketed p) :=
  noFail_pmap (noFail_pthen (noFail_pchar '(') (noFail_pthen hp (noFail_pchar ')'))) _

theorem noFail_pmany0Go {α : Type} {p : P α} (hp : NoFail p) :
    ∀ (fuel : Nat) (i : Input) (acc : List α) (e : VError),
      pmany0Go p fuel i acc ≠ .failure e := by
  intro fuel
  induction fuel with
  | zero => intro i acc e h; simp [pmany0Go] at h
  | succ f ih =>
    intro i acc e h
    cases h2 : p i with
    | ok r a =>
      by_cases h3 : r.frag.length = i.frag.length
      · simp [pmany0Go, h2, h3] at h
      · simp only [pmany0Go, h2, h3, if_false, ite_false] at h
        exact ih r (a :: acc) e h
    | error e2 => simp [pmany0Go, h2] at h
    | failure e2 => exact hp i e2 h2

theorem noFail_pmany0 {α : Type} {p : P α} (hp : NoFail p) :
    NoFail (pmany0 p) := fun i e h => noFail_pmany0Go hp _ i [] e h

theorem noFail_pmany1Go {α : Type} {p : P α} (hp : NoFail p) :
    ∀ (fuel : Nat) (i : Input) (acc : List α) (e : VError),
      pmany1Go p fuel i acc ≠ .failure e := by
  intro fuel
  induction fuel with
  | zero => intro i acc e h; simp [pmany1Go] at h
  | succ f ih =>
    intro i acc e h
    cases h2 : p i with
    | ok r a =>
      by_cases h3 : r.frag.length = i.frag.length
      · simp [pmany1Go, h2, h3] at h
      · simp only [pmany1Go, h2, h3, if_false, ite_false] at h
        exact ih r (a :: acc) e h
    | error e2 => simp [pmany1Go, h2] at h
    | failure e2 => exact hp i e2 h2

theorem noFail_pmany1 {α : Type} {p : P α} (hp : NoFail p) :
    NoFail (pmany1 p) := by
  intro i e h
  cases h2 : p i with
  | ok r a =>
    simp only [pmany1, h2] at h
    exact noFail_pmany1Go hp _ r [a] e h
  | error e2 => simp [pmany1, h2] at h
  | failure e2 => exact hp i e2 h2

theorem noFail_psepGo {α β : Type} {sep : P β} {p : P α} (hs : NoFail sep)
    (hp : NoFail p) :
    ∀ (fuel : Nat) (i : Input) (acc : List α) (e : VError),
      psepGo sep p fuel i acc ≠ .failure e := by
  intro fuel
  induction fuel with
  | zero => intro i acc e h; simp [psepGo] at h
  | succ f ih =>
    intro i acc e h
    cases h2 : sep i with
    | ok i1 b =>
      by_cases h3 : i1.frag.length = i.frag.length
      · simp [psepGo, h2, h3] at h
      · cases h4 : p i1 with
        | ok i2 a =>
          simp only [psepGo, h2, h3, h4, if_false, ite_false] at h
          exact ih i2 (a :: acc) e h
        | error e2 => simp [psepGo, h2, h3, h4] at h
        | failure e2 => exact hp i1 e2 h4
    | error e2 => simp [psepGo, h2] at h
    | failure e2 => exact hs i e2 h2

theorem noFail_psepList0 {α β : Type} {sep : P β} {p : P α} (hs : NoFail sep)
    (hp : NoFail p) : NoFail (psepList0 sep p) := by
  intro i e h
  cases h2 : p i with
  | ok r a =>
    simp only [psepList0, h2] at h
    exact noFail_psepGo hs hp _ r [a] e h
  | error e2 => simp [psepList0, h2] at h
  | failure e2 => exact hp i e2 h2

theorem shrinks_pmap {α β : Type} {p : P α} (hp : Shrinks p) (f : α → β) :
    Shrinks (pmap p f) := by
  intro i r b h
  obtain ⟨a, ha, -⟩ := (pmap_ok_iff p f i r b).mp h
  exact hp i r a ha

theorem shrinks_pmapRes {α β : Type} {p : P α} (hp : Shrinks p)
    (f : α → Except String β) : Shrinks (pmapRes p f) := by
  intro i r b h
  obtain ⟨a, ha, -⟩ := (pmapRes_ok_iff p f i r b).mp h
  exact hp i r a ha

theorem shrinks_pcontext {α : Type} {p : P α} (hp : Shrinks p) (n : String) :
    Shrinks (pcontext n p) := by
  intro i r a h
  exact hp i r a ((pcontext_ok_iff n p i r a).mp h)

theorem shrinks_pthen {α β : Type} {p : P α} {q : P β} (hp : Shrinks p)
    (hq : Shrinks q) : Shrinks (pthen p q) := by
  intro i r x h
  obtain ⟨m, h1, h2⟩ := (pthen_ok_iff p q i r x).mp h
  exact Nat.le_trans (hq m r x.2 h2) (hp i m x.1 h1)

theorem consumes_pthen_left {α β : Type} {p : P α} {q : P β} (hp : Consumes p)
    (hq : Shrinks q) : Consumes (pthen p q) := by
  intro i r x h
  obtain ⟨m, h1, h2⟩ := (pthen_ok_iff p q i r x).mp h
  exact Nat.lt_of_le_of_lt (hq m r x.2 h2) (hp i m x.1 h1)

theorem consumes_pthen_right {α β : Type} {p : P α} {q : P β} (hp : Shrinks p)
    (hq : Consumes q) : Consumes (pthen p q) := by
  intro i r x h
  obtain ⟨m, h1, h2⟩ := (pthen_ok_iff p q i r x).mp h
  exact Nat.lt_of_lt_of_le (hq m r x.2 h2) (hp i m x.1 h1)

theorem consumes_pmap {α β : Type} {p : P α} (hp : Consumes p) (f : α → β) :
    Consumes (pmap p f) := by
  intro i r b h
  obtain ⟨a, ha, -⟩ := (pmap_ok_iff p f i r b).mp h
  exact hp i r a ha

theorem consumes_pmapRes {α β : Type} {p : P α} (hp : Consumes p)
    (f : α → Except String β) : Consumes (pmapRes p f) := by
  intro i r b h
  obtain ⟨a, ha, -⟩ := (pmapRes_ok_iff p f i r b).mp h
  exact hp i r a ha

theorem consumes_pcontext {α : Type} {p : P α} (hp : Consumes p) (n : String) :
    Consumes (pcontext n p) := by
  intro i r a h
  exact hp i r a ((pcontext_ok_iff n p i r a).mp h)

theorem consumes_precognize {α : Type} {p : P α} (hp : Consumes p) :
    Consumes (precognize p) := by
  intro i r s h
  obtain ⟨⟨a, ha⟩, -⟩ := (precognize_ok_iff p i r s).mp h
  exact hp i r a ha

theorem shrinks_ppreceded {α β : Type} {p : P α} {q : P β} (hp : Shrinks p)
    (hq : Shrinks q) : Shrinks (ppreceded p q) :=
  shrinks_pmap (shrinks_pthen hp hq) _

theorem shrinks_pterminated {α β : Type} {p : P α} {q : P β} (hp : Shrinks p)
    (hq : Shrinks q) : Shrinks (pterminated p q) :=
  shrinks_pmap (shrinks_pthen hp hq) _

theorem shrinks_pdelimited {α β γ : Type} {p : P α} {q : P β} {r : P γ}
    (hp : Shrinks p) (hq : Shrinks q) (hr : Shrinks r) :
    Shrinks (pdelimited p q r) :=
  shrinks_pmap (shrinks_pthen hp (shrinks_pthen hq hr)) _

theorem shrinks_psepPair {α β γ : Type} {p : P α} {sep : P β} {q : P γ}
    (hp : Shrinks p) (hs : Shrinks sep) (hq : Shrinks q) :
    Shrinks (psepPair p sep q) :=
  shrinks_pmap (shrinks_pthen hp (shrinks_pthen hs hq)) _

theorem shrinks_precognize {α : Type} {p : P α} (hp : Shrinks p) :
    Shrinks (precognize p) := by
  intro i r s h
  obtain ⟨⟨a, ha⟩, -⟩ := (precognize_ok_iff p i r s).mp h
  exact hp i r a ha

theorem consumes_pchar (c : Char) : Consumes (pchar c) := by
  intro i r a h
  cases h2 : i.frag with
  | nil => simp [pchar, h2] at h
  | cons d t =>
    by_cases h3 : d = c <;> simp [pchar, h2, h3] at h
    obtain ⟨h4, -⟩ := h
    subst h4
    simp [Input.advance_frag_length, h2]

theorem shrinks_pchar (c : Char) : Shrinks (pchar c) :=
  fun i r a h => Nat.le_of_lt (consumes_pchar c i r a h)

theorem shrinks_ptag (s : String) : Shrinks (ptag s) := by
  intro i r a h
  by_cases h2 : s.data.isPrefixOf i.frag <;> simp [ptag, h2] at h
  obtain ⟨h3, -⟩ := h
  subst h3
  simp [Input.advance_frag_length]

theorem consumes_poneOf (s : String) : Consumes (poneOf s) := by
  intro i r a h
  cases h2 : i.frag with
  | nil => simp [poneOf, h2] at h
  | cons d t =>
    by_cases h3 : d ∈ s.data <;> simp [poneOf, h2, h3] at h
    obtain ⟨h4, -⟩ := h
    subst h4
    simp [Input.advance_frag_length, h2]

theorem shrinks_palpha1 : Shrinks palpha1 := by
  intro i r a h
  by_cases h2 : (i.frag.takeWhile isAlphabetic).isEmpty <;> simp [palpha1, h2] at h
  obtain ⟨h3, -⟩ := h
  subst h3
  simp [Input.advance_frag_length]

theorem consumes_palpha1 : Consumes palpha1 := by
  intro i r a h
  by_cases h2 : (i.frag.takeWhile isAlphabetic).isEmpty <;> simp [palpha1, h2] at h
  obtain ⟨h3, -⟩ := h
  subst h3
  rw [Input.advance_frag_length]
  have hlen : 0 < (i.frag.takeWhile isAlphabetic).length := by
    cases h4 : i.frag.takeWhile isAlphabetic with
    | nil => simp [h4] at h2
    | cons c t => simp [h4]
  have hle : (i.frag.takeWhile isAlphabetic).length ≤ i.frag.length :=
    List.Sublist.length_le (List.IsPrefix.sublist (List.takeWhile_prefix _))
  have hpos : 0 < i.frag.length := Nat.lt_of_lt_of_le hlen hle
  omega

theorem shrinks_palphanumeric0 : Shrinks palphanumeric0 := by
  intro i r a h
  simp only [palphanumeric0, PResult.ok.injEq] at h
  obtain ⟨h3, -⟩ := h
  subst h3
  simp [Input.advance_frag_length]

theorem shrinks_pmultispace0 : Shrinks pmultispace0 := by
  intro i r a h
  simp only [pmultispace0, PResult.ok.injEq] at h
  obtain ⟨h3, -⟩ := h
  subst h3
  simp [Input.advance_frag_length]

theorem shrinks_paltGo {α : Type} {ps : List (P α)}
    (hps : ∀ p ∈ ps, Shrinks p) (i : Input) :
    ∀ (acc : VError) (r : Input) (a : α),
      paltGo i ps acc = .ok r a → r.frag.length ≤ i.frag.length := by
  intro acc r a h
  obtain ⟨p, hmem, hok⟩ := paltGo_ok_mem i r a ps acc h
  exact hps p hmem i r a hok

theorem shrinks_palt {α : Type} {ps : List (P α)} (hps : ∀ p ∈ ps, Shrinks p) :
    Shrinks (palt ps) := fun i r a h => shrinks_paltGo hps i [] r a h

theorem shrinks_pbracketed {α : Type} {p : P α} (hp : Shrinks p) :
    Shrinks (pbracketed p) :=
  shrinks_pmap (shrinks_pthen (shrinks_pchar '(')
    (shrinks_pthen hp (shrinks_pchar ')'))) _

theorem consumes_pbracketed {α : Type} {p : P α} (hp : Shrinks p) :
    Consumes (pbracketed p) :=
  consumes_pmap (consumes_pthen_left (consumes_pchar '(')
    (shrinks_pthen hp (shrinks_pchar ')'))) _

theorem shrinks_pmany0Go {α : Type} {p : P α} (hp : Shrinks p) :
    ∀ (fuel : Nat) (i : Input) (acc : List α) (r : Input) (xs : List α),
      pmany0Go p fuel i acc = .ok r xs → r.frag.length ≤ i.frag.length := by
  intro fuel
  induction fuel with
  | zero =>
    intro i acc r xs h
    simp only [pmany0Go, PResult.ok.injEq] at h
    obtain ⟨h1, -⟩ := h
    subst h1; exact Nat.le_refl _
  | succ f ih =>
    intro i acc r xs h
    cases h2 : p i with
    | ok i1 a =>
      by_cases h3 : i1.frag.length = i.frag.length
      · simp [pmany0Go, h2, h3] at h
      · simp only [pmany0Go, h2, h3, if_false, ite_false] at h
        exact Nat.le_trans (ih i1 (a :: acc) r xs h) (hp i i1 a h2)
    | error e =>
      simp only [pmany0Go, h2, PResult.ok.injEq] at h
      obtain ⟨h1, -⟩ := h
      subst h1; exact Nat.le_refl _
    | failure e => simp [pmany0Go, h2] at h

theorem shrinks_pmany0 {α : Type} {p : P α} (hp : Shrinks p) :
    Shrinks (pmany0 p) := fun i r xs h => shrinks_pmany0Go hp _ i [] r xs h

theorem shrinks_pmany1Go {α : Type} {p : P α} (hp : Shrinks p) :
    ∀ (fuel : Nat) (i : Input) (acc : List α) (r : Input) (xs : List α),
      pmany1Go p fuel i acc = .ok r xs → r.frag.length ≤ i.frag.length := by
  intro fuel
  induction fuel with
  | zero =>
    intro i acc r xs h
    simp only [pmany1Go, PResult.ok.injEq] at h
    obtain ⟨h1, -⟩ := h
    subst h1; exact Nat.le_refl _
  | succ f ih =>
    intro i acc r xs h
    cases h2 : p i with
    | ok i1 a =>
      by_cases h3 : i1.frag.length = i.frag.length
      · simp [pmany1Go, h2, h3] at h
      · simp only [pmany1Go, h2, h3, if_false, ite_false] at h
        exact Nat.le_trans (ih i1 (a :: acc) r xs h) (hp i i1 a h2)
    | error e =>
      simp only [pmany1Go, h2, PResult.ok.injEq] at h
      obtain ⟨h1, -⟩ := h
      subst h1; exact Nat.le_refl _
    | failure e => simp [pmany1Go, h2] at h

theorem shrinks_pmany1 {α : Type} {p : P α} (hp : Shrinks p) :
    Shrinks (pmany1 p) := by
  intro i r xs h
  cases h2 : p i with
  | ok i1 a =>
    simp only [pmany1, h2] at h
    exact Nat.le_trans (shrinks_pmany1Go hp _ i1 [a] r xs h) (hp i i1 a h2)
  | error e => simp [pmany1, h2] at h
  | failure e => simp [pmany1, h2] at h

theorem shrinks_psepGo {α β : Type} {sep : P β} {p : P α} (hs : Shrinks sep)
    (hp : Shrinks p) :
    ∀ (fuel : Nat) (i : Input) (acc : List α) (r : Input) (xs : List α),
      psepGo sep p fuel i acc = .ok r xs → r.frag.length ≤ i.frag.length := by
  intro fuel
  induction fuel with
  | zero =>
    intro i acc r xs h
    simp only [psepGo, PResult.ok.injEq] at h
    obtain ⟨h1, -⟩ := h
    subst h1; exact Nat.le_refl _
  | succ f ih =>
    intro i acc r xs h
    cases h2 : sep i with
    | ok i1 b =>
      by_cases h3 : i1.frag.length = i.frag.length
      · simp [psepGo, h2, h3] at h
      · cases h4 : p i1 with
        | ok i2 a =>
          simp only [psepGo, h2, h3, h4, if_false, ite_false] at h
          exact Nat.le_trans (Nat.le_trans (ih i2 (a :: acc) r xs h)
            (hp i1 i2 a h4)) (hs i i1 b h2)
        | error e =>
          simp only [psepGo, h2, h3, h4, if_false, ite_false, PResult.ok.injEq] at h
          obtain ⟨h1, -⟩ := h
          subst h1; exact Nat.le_refl _
        | failure e => simp [psepGo, h2, h3, h4] at h
    | error e =>
      simp only [psepGo, h2, PResult.ok.injEq] at h
      obtain ⟨h1, -⟩ := h
      subst h1; exact Nat.le_refl _
    | failure e => simp [psepGo, h2] at h

theorem shrinks_psepList0 {α β : Type} {sep : P β} {p : P α} (hs : Shrinks sep)
    (hp : Shrinks p) : Shrinks (psepList0 sep p) := by
  intro i r xs h
  cases h2 : p i with
  | ok i1 a =>
    simp only [psepList0, h2] at h
    exact Nat.le_trans (shrinks_psepGo hs hp _ i1 [a] r xs h) (hp i i1 a h2)
  | error e =>
    simp only [psepList0, h2, PResult.ok.injEq] at h
    obtain ⟨h1, -⟩ := h
    subst h1; exact Nat.le_refl _
  | failure e => simp [psepList0, h2] at h

/-- The maximal leading identifier-shaped span of a character list: a maximal
run of alphabetic scalars followed by a maximal run of alphanumeric scalars
(the shape recognized by `Identifier::parse_maybe_reserved`). -/
def identSpan (l : List Char) : List Char :=
  l.takeWhile isAlphabetic
    ++ (l.drop (l.takeWhile isAlphabetic).length).takeWhile isAlphanumeric

theorem drop_length_takeWhile (p : Char → Bool) (l : List Char) :
    l.drop (l.takeWhile p).length = l.dropWhile p := by
  have h := List.takeWhile_append_dropWhile (p := p) (l := l)
  calc l.drop (l.takeWhile p).length
      = (l.takeWhile p ++ l.dropWhile p).drop (l.takeWhile p).length := by rw [h]
    _ = l.dropWhile p := List.drop_left _ _

theorem identSpan_isPrefixOf (l : List Char) : identSpan l <+: l := by
  unfold identSpan
  obtain ⟨t, ht⟩ :=
    List.takeWhile_prefix (l := l.drop (l.takeWhile isAlphabetic).length)
      (p := isAlphanumeric)
  refine ⟨t, ?_⟩
  rw [List.append_assoc, ht, drop_length_takeWhile,
    List.takeWhile_append_dropWhile]

theorem identSpan_length_le (l : List Char) : (identSpan l).length ≤ l.length :=
  (identSpan_isPrefixOf l).length_le

theorem take_identSpan (l : List Char) :
    l.take (identSpan l).length = identSpan l :=
  ((List.prefix_iff_eq_take).mp (identSpan_isPrefixOf l)).symm

theorem palpha1_ok (i : Input) (ha : i.frag.takeWhile isAlphabetic ≠ []) :
    palpha1 i = .ok (i.advance (i.frag.takeWhile isAlphabetic).length)
      (i.span (i.frag.takeWhile isAlphabetic).length) := by
  have h : (i.frag.takeWhile isAlphabetic).isEmpty = false := by
    cases h2 : i.frag.takeWhile isAlphabetic with
    | nil => exact absurd h2 ha
    | cons c t => rfl
  simp [palpha1, h]

theorem palpha1_err (i : Input) (ha : i.frag.takeWhile isAlphabetic = []) :
    palpha1 i = .error [(i, .nom .alpha)] := by
  simp [palpha1, ha]

theorem parseMaybeReserved_ok (i : Input)
    (ha : i.frag.takeWhile isAlphabetic ≠ []) :
    Identifier.parseMaybeReserved i =
      .ok (i.advance (identSpan i.frag).length)
        ⟨⟨i.before, identSpan i.frag, i.line⟩⟩ := by
  have hlen : (identSpan i.frag).length =
      (i.frag.takeWhile isAlphabetic).length +
        ((i.frag.drop (i.frag.takeWhile isAlphabetic).length).takeWhile
          isAlphanumeric).length := by
    simp [identSpan]
  have hle := identSpan_length_le i.frag
  have h1 := palpha1_ok i ha
  simp only [Identifier.parseMaybeReserved, pmap, precognize, ppreceded, pthen,
    h1, palphanumeric0, Input.advance_advance, Input.advance_frag]
  rw [← Input.advance_frag]
  rw [List.length_drop]
  have hfr : ((i.advance (i.frag.takeWhile isAlphabetic).length).frag.takeWhile
      isAlphanumeric).length =
      ((i.frag.drop (i.frag.takeWhile isAlphabetic).length).takeWhile
        isAlphanumeric).length := by
    rw [Input.advance_frag]
  rw [hfr, ← hlen]
  have hsub : i.frag.length - (i.frag.length - (identSpan i.frag).length) =
      (identSpan i.frag).length := by omega
  rw [hsub]
  have hspan : i.span (identSpan i.frag).length =
      ⟨i.before, identSpan i.frag, i.line⟩ := by
    simp [Input.span, take_identSpan]
  rw [hspan]

theorem parseMaybeReserved_err (i : Input)
    (ha : i.frag.takeWhile isAlphabetic = []) :
    Identifier.parseMaybeReserved i = .error [(i, .nom .alpha)] := by
  have h1 := palpha1_err i ha
  simp only [Identifier.parseMaybeReserved, pmap, precognize, ppreceded, pthen, h1]

/-- The reserved-keyword test applied by `Identifier::parse` to a candidate. -/
def isReservedFrag (l : List Char) : Bool :=
  RESERVED_KEYWORDS.any (fun kw => kw.data == l)

theorem identifier_parse_ok (i : Input)
    (ha : i.frag.takeWhile isAlphabetic ≠ [])
    (hr : isReservedFrag (identSpan i.frag) = false) :
    Identifier.parse i =
      .ok (i.advance (identSpan i.frag).length)
        ⟨⟨i.before, identSpan i.frag, i.line⟩⟩ := by
  have h1 := parseMaybeReserved_ok i ha
  simp only [Identifier.parse, pcontext, pmapRes, h1]
  simp only [isReservedFrag] at hr
  simp [hr]

theorem identifier_parse_reserved (i : Input)
    (ha : i.frag.takeWhile isAlphabetic ≠ [])
    (hr : isReservedFrag (identSpan i.frag) = true) :
    Identifier.parse i = .error [(i, .nom .mapRes), (i, .context "identifier")] := by
  have h1 := parseMaybeReserved_ok i ha
  simp only [Identifier.parse, pcontext, pmapRes, h1]
  simp only [isReservedFrag] at hr
  simp [hr]

theorem identifier_parse_no_alpha (i : Input)
    (ha : i.frag.takeWhile isAlphabetic = []) :
    Identifier.parse i = .error [(i, .nom .alpha), (i, .context "identifier")] := by
  have h1 := parseMaybeReserved_err i ha
  simp [Identifier.parse, pcontext, pmapRes, h1]

theorem noFail_identifier_parse : NoFail Identifier.parse :=
  noFail_pcontext (noFail_pmapRes (noFail_pmap (noFail_precognize
    (noFail_ppreceded noFail_palpha1 noFail_palphanumeric0)) _) _) _

theorem consumes_identifier_parse : Consumes Identifier.parse := by
  intro i r id h
  by_cases ha : i.frag.takeWhile isAlphabetic = []
  · rw [identifier_parse_no_alpha i ha] at h; cases h
  · by_cases hr : isReservedFrag (identSpan i.frag)
    · rw [identifier_parse_reserved i ha hr] at h; cases h
    · rw [identifier_parse_ok i ha (by simp [hr])] at h
      cases h
      rw [Input.advance_frag_length]
      have hlen : 0 < (identSpan i.frag).length := by
        cases h4 : i.frag.takeWhile isAlphabetic with
        | nil => exact absurd h4 ha
        | cons c t => simp [identSpan, h4]
      have hle := identSpan_length_le i.frag
      omega

theorem shrinks_identifier_parse : Shrinks Identifier.parse :=
  fun i r a h => Nat.le_of_lt (consumes_identifier_parse i r a h)

/-- A successfully parsed identifier never carries a reserved keyword. -/
theorem identifier_parse_not_reserved (i r : Input) (id : Identifier)
    (h : Identifier.parse i = .ok r id) : isReservedFrag id.span.frag = false := by
  have h2 := (pcontext_ok_iff _ _ i r id).mp h
  obtain ⟨a, -, hres⟩ := (pmapRes_ok_iff _ _ i r id).mp h2
  by_cases hr : isReservedFrag a.span.frag
  · simp only [isReservedFrag] at hr
    simp [hr] at hres
  · simp only [isReservedFrag] at hr
    simp only [hr] at hres
    simp only [Bool.false_eq_true, if_false, ite_false, Except.ok.injEq] at hres
    subst hres
    simpa [isReservedFrag] using hr

theorem noFail_parameter_parse : NoFail Parameter.parse :=
  noFail_pcontext (noFail_pmap (noFail_psepPair noFail_identifier_parse
    (noFail_ptag ": ") noFail_identifier_parse) _) _

theorem shrinks_parameter_parse : Shrinks Parameter.parse :=
  shrinks_pcontext (shrinks_pmap (shrinks_psepPair shrinks_identifier_parse
    (shrinks_ptag ": ") shrinks_identifier_parse) _) _

theorem noFail_operator_parse : NoFail Operator.parse := by
  refine noFail_pcontext (noFail_pmapRes (noFail_palt ?_) _) _
  intro p hp
  simp only [List.mem_cons, List.mem_singleton, List.not_mem_nil, or_false] at hp
  rcases hp with h | h | h | h <;> subst h <;> exact noFail_pchar _

theorem shrinks_operator_parse : Shrinks Operator.parse := by
  refine shrinks_pcontext (shrinks_pmapRes (shrinks_palt ?_) _) _
  intro p hp
  simp only [List.mem_cons, List.mem_singleton, List.not_mem_nil, or_false] at hp
  rcases hp with h | h | h | h <;> subst h <;> exact shrinks_pchar _

theorem noFail_parseNum : NoFail Expression.parseNum :=
  noFail_pcontext (noFail_pmapRes (noFail_pmany1 (noFail_poneOf _)) _) _

theorem shrinks_parseNum : Shrinks Expression.parseNum :=
  shrinks_pcontext (shrinks_pmapRes (shrinks_pmany1
    (fun i r a h => Nat.le_of_lt (consumes_poneOf _ i r a h))) _) _

theorem noFail_arithmeticP {pexp : P Expression} (hp : NoFail pexp) :
    NoFail (arithmeticP pexp) :=
  noFail_pcontext (noFail_pmap (noFail_pbracketed (noFail_pthen hp
    (noFail_pthen (noFail_pdelimited (noFail_pchar ' ') noFail_operator_parse
      (noFail_pchar ' ')) hp))) _) _

theorem shrinks_arithmeticP {pexp : P Expression} (hp : Shrinks pexp) :
    Shrinks (arithmeticP pexp) :=
  shrinks_pcontext (shrinks_pmap (shrinks_pbracketed (shrinks_pthen hp
    (shrinks_pthen (shrinks_pdelimited (shrinks_pchar ' ') shrinks_operator_parse
      (shrinks_pchar ' ')) hp))) _) _

theorem noFail_assignmentP {pexp : P Expression} (hp : NoFail pexp) :
    NoFail (assignmentP pexp) :=
  noFail_pcontext (noFail_pmap (noFail_pthen noFail_identifier_parse
    (noFail_pthen (noFail_ptag " = ") hp)) _) _

theorem shrinks_assignmentP {pexp : P Expression} (hp : Shrinks pexp) :
    Shrinks (assignmentP pexp) :=
  shrinks_pcontext (shrinks_pmap (shrinks_pthen shrinks_identifier_parse
    (shrinks_pthen (shrinks_ptag " = ") hp)) _) _

theorem noFail_letInP {pexp : P Expression} (hp : NoFail pexp) :
    NoFail (letInP pexp) :=
  noFail_pcontext (noFail_pmap (noFail_pthen (noFail_ptag "let")
    (noFail_pthen noFail_pnewline
      (noFail_pthen (noFail_pmany1 (noFail_pthen noFail_pmultispace0
        (noFail_pthen (noFail_assignmentP hp) noFail_pnewline)))
        (noFail_pthen (noFail_pterminated (noFail_ppreceded noFail_pmultispace0
          (noFail_ptag "in")) noFail_pmultispace0) hp)))) _) _

theorem shrinks_letInP {pexp : P Expression} (hp : Shrinks pexp) :
    Shrinks (letInP pexp) :=
  shrinks_pcontext (shrinks_pmap (shrinks_pthen (shrinks_ptag "let")
    (shrinks_pthen (shrinks_pchar '\n')
      (shrinks_pthen (shrinks_pmany1 (shrinks_pthen shrinks_pmultispace0
        (shrinks_pthen (shrinks_assignmentP hp) (shrinks_pchar '\n'))))
        (shrinks_pthen (shrinks_pterminated (shrinks_ppreceded shrinks_pmultispace0
          (shrinks_ptag "in")) shrinks_pmultispace0) hp)))) _) _

theorem noFail_fnInvocationP {pexp : P Expression} (hp : NoFail pexp) :
    NoFail (fnInvocationP pexp) :=
  noFail_pcontext (noFail_pmap (noFail_pthen noFail_identifier_parse
    (noFail_pthen (noFail_pchar '(')
      (noFail_pthen (noFail_psepList0 (noFail_ptag ", ") hp)
        (noFail_pchar ')')))) _) _

theorem shrinks_fnInvocationP {pexp : P Expression} (hp : Shrinks pexp) :
    Shrinks (fnInvocationP pexp) :=
  shrinks_pcontext (shrinks_pmap (shrinks_pthen shrinks_identifier_parse
    (shrinks_pthen (shrinks_pchar '(')
      (shrinks_pthen (shrinks_psepList0 (shrinks_ptag ", ") hp)
        (shrinks_pchar ')')))) _) _

theorem noFail_expression_parseF : ∀ f : Nat, NoFail (Expression.parseF f) := by
  intro f
  induction f with
  | zero => intro i e h; cases h
  | succ f ih =>
    refine noFail_pcontext (noFail_palt ?_) _
    intro p hp
    simp only [List.mem_cons, List.mem_singleton, List.not_mem_nil, or_false] at hp
    rcases hp with h | h | h | h | h <;> subst h
    · exact noFail_arithmeticP ih
    · exact noFail_parseNum
    · exact noFail_letInP ih
    · exact noFail_pmap (noFail_fnInvocationP ih) _
    · exact noFail_pmap noFail_identifier_parse _

theorem shrinks_expression_parseF : ∀ f : Nat, Shrinks (Expression.parseF f) := by
  intro f
  induction f with
  | zero => intro i r a h; cases h
  | succ f ih =>
    refine shrinks_pcontext (shrinks_palt ?_) _
    intro p hp
    simp only [List.mem_cons, List.mem_singleton, List.not_mem_nil, or_false] at hp
    rcases hp with h | h | h | h | h <;> subst h
    · exact shrinks_arithmeticP ih
    · exact shrinks_parseNum
    · exact shrinks_letInP ih
    · exact shrinks_pmap (shrinks_fnInvocationP ih) _
    · exact shrinks_pmap shrinks_identifier_parse _

theorem noFail_fnDefP {pexp : P Expression} (hp : NoFail pexp) :
    NoFail (fnDefP pexp) :=
  noFail_pcontext (noFail_pmap (noFail_pthen
    (noFail_pcontext noFail_identifier_parse _)
    (noFail_pthen (noFail_pcontext (noFail_ptag " = ") _)
      (noFail_pthen (noFail_pcontext (noFail_pbracketed (noFail_pthen
        (noFail_pcontext (noFail_psepList0 (noFail_ptag ", ")
          noFail_parameter_parse) _)
        (noFail_pthen (noFail_pcontext (noFail_ptag " -> ") _)
          noFail_identifier_parse))) _)
        (noFail_pthen (noFail_pcontext (noFail_pterminated (noFail_ptag " =>")
          noFail_pmultispace0) _)
          (noFail_pcontext hp _))))) _) _

theorem consumes_fnDefP {pexp : P Expression} (hp : Shrinks pexp) :
    Consumes (fnDefP pexp) :=
  consumes_pcontext (consumes_pmap (consumes_pthen_left
    (consumes_pcontext consumes_identifier_parse _)
    (shrinks_pthen (shrinks_pcontext (shrinks_ptag " = ") _)
      (shrinks_pthen (shrinks_pcontext (shrinks_pbracketed (shrinks_pthen
        (shrinks_pcontext (shrinks_psepList0 (shrinks_ptag ", ")
          shrinks_parameter_parse) _)
        (shrinks_pthen (shrinks_pcontext (shrinks_ptag " -> ") _)
          shrinks_identifier_parse))) _)
        (shrinks_pthen (shrinks_pcontext (shrinks_pterminated (shrinks_ptag " =>")
          shrinks_pmultispace0) _)
          (shrinks_pcontext hp _))))) _) _

/-- `many0` of a never-fatal, always-consuming parser always succeeds: the loop
stops at the first recoverable error and the infinite-loop guard never fires. -/
theorem pmany0_always_ok {α : Type} {p : P α} (hnf : NoFail p) (hc : Consumes p) :
    ∀ (fuel : Nat) (i : Input) (acc : List α),
      ∃ r xs, pmany0Go p fuel i acc = .ok r xs := by
  intro fuel
  induction fuel with
  | zero => intro i acc; exact ⟨i, acc.reverse, rfl⟩
  | succ f ih =>
    intro i acc
    cases h2 : p i with
    | ok i1 a =>
      have h3 : i1.frag.length ≠ i.frag.length :=
        Nat.ne_of_lt (hc i i1 a h2)
      obtain ⟨r, xs, hr⟩ := ih i1 (a :: acc)
      exact ⟨r, xs, by simp only [pmany0Go, h2, h3, if_false, ite_false]; exact hr⟩
    | error e => exact ⟨i, acc.reverse, by simp [pmany0Go, h2]⟩
    | failure e => exact absurd h2 (hnf i e)

/-- Structure of the program parser: it either succeeds with empty remaining
input, or fails with exactly the end-of-file error at the unconsumed remainder
followed by the program-root context at the start. -/
theorem ast_parse_cases (i : Input) :
    (∃ r a, AbstractSyntaxTree.parse i = .ok r a ∧ r.frag = []) ∨
      (∃ rem, AbstractSyntaxTree.parse i =
          .error [(rem, .nom .eof), (i, .context "program root")] ∧
        rem.frag ≠ []) := by
  have hnf : NoFail (fnDefP (Expression.parseF i.frag.length)) :=
    noFail_fnDefP (noFail_expression_parseF _)
  have hc : Consumes (fnDefP (Expression.parseF i.frag.length)) :=
    consumes_fnDefP (shrinks_expression_parseF _)
  obtain ⟨r, xs, hr⟩ := pmany0_always_ok hnf hc (i.frag.length + 1) i []
  by_cases hemp : r.frag = []
  · left
    refine ⟨r, ⟨xs⟩, ?_, hemp⟩
    simp [AbstractSyntaxTree.parse, pcontext, pmap, pallConsuming, pmany0, hr, hemp]
  · right
    refine ⟨r, ?_, hemp⟩
    have hemp2 : r.frag.isEmpty = false := by
      cases h4 : r.frag with
      | nil => exact absurd h4 hemp
      | cons c t => rfl
    simp [AbstractSyntaxTree.parse, pcontext, pmap, pallConsuming, pmany0, hr, hemp2]

/-- C1: if the program production (and hence the parse entry point) succeeds,
the entire input has been consumed; and whenever the repeated
function-definition production leaves unconsumed trailing text, the top-level
parse fails instead of succeeding with a remainder. -/
theorem c1_program_consumes_entire_input :
    (∀ (src : String) (rem : Input) (ast : AbstractSyntaxTree),
        parse src = .ok (rem, ast) → rem.frag = []) ∧
    (∀ (src : String) (rem : Input) (fns : List FnDef),
        pmany0 (fnDefP (Expression.parseF (Input.new src).frag.length))
            (Input.new src) = .ok rem fns →
        rem.frag ≠ [] → (parse src).isError = true) := by
  constructor
  · intro src rem ast h
    rcases ast_parse_cases (Input.new src) with ⟨r, a, hok, hemp⟩ | ⟨rm, herr, -⟩
    · simp only [parse, hok, Except.ok.injEq, Prod.mk.injEq] at h
      obtain ⟨h1, -⟩ := h
      exact h1 ▸ hemp
    · simp [parse, herr] at h
  · intro src rem fns h hne
    simp only [pmany0] at h
    simp [parse, AbstractSyntaxTree.parse, pcontext, pmap, pallConsuming,
      pmany0, h, hne, Except.isError]

set_option maxHeartbeats 8000000 in
/-- Witness for C1 at the concrete program `f = ( -> T) => 1`, which parses
successfully; the theorem then forces its remainder to be empty. -/
theorem c1_witness : (Input.mk "f = ( -> T) => 1".data [] 1).frag = [] := by
  have h : ∃ ast, parse "f = ( -> T) => 1" =
      .ok (⟨"f = ( -> T) => 1".data, [], 1⟩, ast) := ⟨_, rfl⟩
  obtain ⟨ast, h⟩ := h
  exact c1_program_consumes_entire_input.1 "f = ( -> T) => 1" _ ast h

/-- C5: a failing parse returns a nonempty diagnostic list ordered from the
innermost failing production to the outermost: here, exactly the end-of-file
mismatch at the unconsumed remainder first, and the "program root" context at
the start of the whole input (line 1, column 1) last. -/
theorem c5_error_chain_structure :
    ∀ (src : String) (errs : List DisplayableError),
      parse src = .error errs →
      ∃ rem : Input,
        errs = [⟨rem, .nom .eof, rem.line, rem.utf8Column⟩,
                ⟨Input.new src, .context "program root", 1, 1⟩] := by
  intro src errs h
  rcases ast_parse_cases (Input.new src) with ⟨r, a, hok, -⟩ | ⟨rem, herr, -⟩
  · simp [parse, hok] at h
  · refine ⟨rem, ?_⟩
    simp only [parse, herr, Except.error.injEq] at h
    subst h
    simp [DisplayableError.new, Input.new, Input.utf8Column]

set_option maxHeartbeats 8000000 in
/-- Witness for C5 at the failing source `123abc`. -/
theorem c5_witness :
    ∃ rem : Input,
      ([⟨⟨[], "123abc".data, 1⟩, .nom .eof, 1, 1⟩,
        ⟨⟨[], "123abc".data, 1⟩, .context "program root", 1, 1⟩] :
         List DisplayableError) =
      [⟨rem, .nom .eof, rem.line, rem.utf8Column⟩,
       ⟨Input.new "123abc", .context "program root", 1, 1⟩] :=
  c5_error_chain_structure "123abc" _ (by rfl)

set_option maxHeartbeats 8000000 in
/-- C6 counterexample: parsing `123abc` as a program does fail, but no
diagnostic entry reports the remainder `abc`: since `123abc` cannot start a
function definition, nothing is consumed and the reported remainder is the
whole input `123abc`. -/
theorem c6_counterexample :
    parse "123abc" = .error
      [⟨⟨[], "123abc".data, 1⟩, .nom .eof, 1, 1⟩,
       ⟨⟨[], "123abc".data, 1⟩, .context "program root", 1, 1⟩] ∧
    ∀ d ∈ ([⟨⟨[], "123abc".data, 1⟩, .nom .eof, 1, 1⟩,
            ⟨⟨[], "123abc".data, 1⟩, .context "program root", 1, 1⟩] :
             List DisplayableError), d.input.frag ≠ "abc".data := by
  exact ⟨by rfl, by decide⟩

set_option maxHeartbeats 8000000 in
/-- C6 amended: parsing `123abc` as a full program fails with the unconsumed
remainder being the entire input `123abc` (reported as the end-of-file entry of
the diagnostic chain), because `123abc` cannot start a function definition and
therefore no prefix at all is consumed. -/
theorem c6_amended :
    parse "123abc" = .error
      [⟨⟨[], "123abc".data, 1⟩, .nom .eof, 1, 1⟩,
       ⟨⟨[], "123abc".data, 1⟩, .context "program root", 1, 1⟩] ∧
    (FnDef.parse (Input.new "123abc")).isErr = true := by
  exact ⟨by rfl, by rfl⟩

set_option maxHeartbeats 8000000 in
/-- C8 counterexample: on `n_hello` the identifier production does not fail; it
succeeds, consuming only the leading letter `n` and leaving `_hello`. -/
theorem c8_counterexample :
    Identifier.parse (Input.new "n_hello") =
      .ok ⟨"n".data, "_hello".data, 1⟩ ⟨⟨[], "n".data, 1⟩⟩ := by rfl

/-- C8 amended: for every input beginning with a letter followed immediately by
an underscore, the identifier production succeeds but consumes only the leading
letter (the underscore is not part of the identifier); consequently an
assignment such as `n_hello = 100` fails to parse, because the required
space-equals-space separator is not found at the underscore. -/
theorem c8_amended :
    ∀ (i : Input) (c : Char) (t : List Char),
      i.frag = c :: '_' :: t → isAlphabetic c = true →
      Identifier.parse i = .ok (i.advance 1) ⟨⟨i.before, [c], i.line⟩⟩ ∧
      (Assignment.parse i).isErr = true := by
  intro i c t hfrag hc
  have htw : i.frag.takeWhile isAlphabetic = [c] := by
    rw [hfrag]
    simp only [isAlphabetic] at hc
    simp [List.takeWhile_cons, hc, isAlphabetic]
  have hspan : identSpan i.frag = [c] := by
    unfold identSpan
    rw [htw, hfrag]
    simp [isAlphanumeric]
  have hres : isReservedFrag (identSpan i.frag) = false := by
    rw [hspan]
    simp [isReservedFrag, RESERVED_KEYWORDS]
  have hid := identifier_parse_ok i (by rw [htw]; simp) hres
  rw [hspan] at hid
  refine ⟨hid, ?_⟩
  have htag : ptag " = " (i.advance 1) = .error [(i.advance 1, .nom .tag)] := by
    have : (i.advance 1).frag = '_' :: t := by
      rw [Input.advance_frag, hfrag]; rfl
    simp [ptag, this, List.isPrefixOf]
  have hlen1 : ([c] : List Char).length = 1 := rfl
  simp only [Assignment.parse, assignmentP, pcontext, pmap, pthen, hid, hlen1, htag]
  rfl

set_option maxHeartbeats 8000000 in
/-- Witness for C8 amended at the test input `n_hello = 100`. -/
theorem c8_witness :
    Identifier.parse (Input.new "n_hello = 100") =
      .ok ((Input.new "n_hello = 100").advance 1) ⟨⟨[], ['n'], 1⟩⟩ ∧
    (Assignment.parse (Input.new "n_hello = 100")).isErr = true :=
  c8_amended (Input.new "n_hello = 100") 'n' "hello = 100".data (by decide) (by decide)

/-- C9 counterexample: two identifiers with the same text `radius` but
different offsets (13 and 21, the spans of the repository's own test data)
have equal fragments yet compare unequal under the derived `PartialEq`, which
compares line, offset and fragment. -/
theorem c9_counterexample :
    (Identifier.fromSpan "radius" 13 1).span.frag =
      (Identifier.fromSpan "radius" 21 1).span.frag ∧
    Identifier.speq (Identifier.fromSpan "radius" 13 1)
      (Identifier.fromSpan "radius" 21 1) = false := by
  exact ⟨rfl, by decide⟩

/-- C9 amended: identifiers with equal text display identically, but they
compare equal only when the position metadata agrees as well: the derived
equality holds exactly when line, offset and fragment all coincide. -/
theorem c9_amended :
    (∀ a b : Identifier, a.span.frag = b.span.frag → a.display = b.display) ∧
    (∀ a b : Identifier, Identifier.speq a b = true ↔
      (a.span.line = b.span.line ∧ a.span.offset = b.span.offset ∧
        a.span.frag = b.span.frag)) := by
  constructor
  · intro a b h
    simp [Identifier.display, h]
  · intro a b
    simp [Identifier.speq, Bool.and_eq_true, beq_iff_eq, and_assoc]

/-- Witness for C9 amended: reflexive equality at offset 13, and equal display
of the two spans of the counterexample. -/
theorem c9_witness :
    Identifier.speq (Identifier.fromSpan "radius" 13 1)
      (Identifier.fromSpan "radius" 13 1) = true ∧
    (Identifier.fromSpan "radius" 13 1).display =
      (Identifier.fromSpan "radius" 21 1).display :=
  ⟨(c9_amended.2 _ _).mpr ⟨rfl, rfl, rfl⟩, c9_amended.1 _ _ rfl⟩

/-- C10: when the maximal leading identifier-shaped span strictly extends a
reserved keyword (for instance `input`, `letter`, `let1`), the identifier
production succeeds and returns the entire span: the reserved check compares
the whole span, never a proper prefix of it. -/
theorem c10_keyword_proper_prefix_ok :
    ∀ (i : Input) (kw : List Char),
      (kw = "let".data ∨ kw = "in".data) →
      i.frag.takeWhile isAlphabetic ≠ [] →
      kw <+: identSpan i.frag → kw ≠ identSpan i.frag →
      Identifier.parse i = .ok (i.advance (identSpan i.frag).length)
        ⟨⟨i.before, identSpan i.frag, i.line⟩⟩ := by
  intro i kw hkw ha hpre hne
  have hlt : kw.length < (identSpan i.frag).length := by
    rcases Nat.lt_or_ge kw.length (identSpan i.frag).length with h | h
    · exact h
    · have := hpre.length_le
      have heq : kw.length = (identSpan i.frag).length := by omega
      exact absurd (hpre.eq_of_length heq) hne
  have hres : isReservedFrag (identSpan i.frag) = false := by
    rcases hkw with h | h <;> subst h
    · have h3 : ("let".data == identSpan i.frag) = false := by
        rw [beq_eq_false_iff_ne]
        intro hh; rw [← hh] at hlt; simp at hlt
      have h4 : ("in".data == identSpan i.frag) = false := by
        rw [beq_eq_false_iff_ne]
        intro hh
        rw [← hh] at hlt
        simp at hlt
      simp [isReservedFrag, RESERVED_KEYWORDS, h3, h4]
    · have h3 : ("in".data == identSpan i.frag) = false := by
        rw [beq_eq_false_iff_ne]
        intro hh; rw [← hh] at hlt; simp at hlt
      have h4 : ("let".data == identSpan i.frag) = false := by
        rw [beq_eq_false_iff_ne]
        intro hh
        obtain ⟨t2, ht2⟩ := hpre
        rw [← hh] at ht2
        injection ht2 with h5 h6
        exact absurd h5 (by decide)
      simp [isReservedFrag, RESERVED_KEYWORDS, h3, h4]
  exact identifier_parse_ok i ha hres

set_option maxHeartbeats 8000000 in
/-- Witness for C10 at the input `input`, whose span strictly extends `in`. -/
theorem c10_witness :
    Identifier.parse (Input.new "input") =
      .ok ((Input.new "input").advance (identSpan "input".data).length)
        ⟨⟨[], identSpan "input".data, 1⟩⟩ :=
  c10_keyword_proper_prefix_ok (Input.new "input") "in".data (Or.inr rfl)
    (by decide) (by decide) (by decide)

/-- An identifier whose text is not a reserved keyword. -/
def Identifier.notReservedB (id : Identifier) : Bool :=
  !(isReservedFrag id.span.frag)

mutual

/-- No identifier anywhere in the expression is a reserved keyword. -/
def exprNoReserved : Expression → Bool
  | .number _ => true
  | .name id => id.notReservedB
  | .fnInvocation fi => fnInvNoReserved fi
  | .letIn bindings body => assignsNoReserved bindings && exprNoReserved body
  | .arithmetic lhs _ rhs => exprNoReserved lhs && exprNoReserved rhs

/-- Pointwise `exprNoReserved` over a list of expressions. -/
def exprsNoReserved : List Expression → Bool
  | [] => true
  | e :: es => exprNoReserved e && exprsNoReserved es

/-- No identifier in the invocation (callee or arguments) is reserved. -/
def fnInvNoReserved : FnInvocation → Bool
  | .mk fnName args => fnName.notReservedB && exprsNoReserved args

/-- No identifier in the assignment is reserved. -/
def assignNoReserved : Assignment → Bool
  | .mk identifier value => identifier.notReservedB && exprNoReserved value

/-- Pointwise `assignNoReserved` over a list of bindings. -/
def assignsNoReserved : List Assignment → Bool
  | [] => true
  | a :: rest => assignNoReserved a && assignsNoReserved rest

end

/-- No identifier in the parameter (name or type) is reserved. -/
def Parameter.noReservedB (p : Parameter) : Bool :=
  p.name.notReservedB && p.kclType.notReservedB

/-- No identifier in the function definition is reserved. -/
def FnDef.noReservedB (f : FnDef) : Bool :=
  f.fnName.notReservedB && f.params.all Parameter.noReservedB
    && f.returnType.notReservedB && exprNoReserved f.body

/-- No identifier anywhere in the program is reserved. -/
def AbstractSyntaxTree.noReservedB (a : AbstractSyntaxTree) : Bool :=
  a.functions.all FnDef.noReservedB

/-- A parser whose every successful output satisfies `Q`. -/
def Pres {α : Type} (p : P α) (Q : α → Prop) : Prop :=
  ∀ i r a, p i = .ok r a → Q a

theorem pres_pmap {α β : Type} {p : P α} {Q : α → Prop} {R : β → Prop}
    (hp : Pres p Q) (f : α → β) (h : ∀ a, Q a → R (f a)) : Pres (pmap p f) R := by
  intro i r b hb
  obtain ⟨a, ha, hfa⟩ := (pmap_ok_iff p f i r b).mp hb
  exact hfa ▸ h a (hp i r a ha)

theorem pres_pmapRes {α β : Type} {p : P α} {Q : α → Prop} {R : β → Prop}
    (hp : Pres p Q) (f : α → Except String β)
    (h : ∀ a b, Q a → f a = .ok b → R b) : Pres (pmapRes p f) R := by
  intro i r b hb
  obtain ⟨a, ha, hfa⟩ := (pmapRes_ok_iff p f i r b).mp hb
  exact h a b (hp i r a ha) hfa

theorem pres_pcontext {α : Type} {p : P α} {Q : α → Prop} (hp : Pres p Q)
    (n : String) : Pres (pcontext n p) Q := by
  intro i r a ha
  exact hp i r a ((pcontext_ok_iff n p i r a).mp ha)

theorem pres_pthen {α β : Type} {p : P α} {q : P β} {Q : α → Prop} {R : β → Prop}
    (hp : Pres p Q) (hq : Pres q R) :
    Pres (pthen p q) (fun x => Q x.1 ∧ R x.2) := by
  intro i r x hx
  obtain ⟨m, h1, h2⟩ := (pthen_ok_iff p q i r x).mp hx
  exact ⟨hp i m x.1 h1, hq m r x.2 h2⟩

theorem pres_true {α : Type} (p : P α) : Pres p (fun _ => True) :=
  fun _ _ _ _ => trivial

theorem pres_palt {α : Type} {ps : List (P α)} {Q : α → Prop}
    (hps : ∀ p ∈ ps, Pres p Q) : Pres (palt ps) Q := by
  intro i r a ha
  obtain ⟨p, hmem, hok⟩ := palt_ok_mem ps i r a ha
  exact hps p hmem i r a hok

theorem pres_pmany0Go {α : Type} {p : P α} {Q : α → Prop} (hp : Pres p Q) :
    ∀ (fuel : Nat) (i : Input) (acc : List α) (r : Input) (xs : List α),
      pmany0Go p fuel i acc = .ok r xs → (∀ x ∈ acc, Q x) → ∀ x ∈ xs, Q x := by
  intro fuel
  induction fuel with
  | zero =>
    intro i acc r xs h hacc
    simp only [pmany0Go, PResult.ok.injEq] at h
    obtain ⟨-, h2⟩ := h
    subst h2
    simpa using hacc
  | succ f ih =>
    intro i acc r xs h hacc
    cases h2 : p i with
    | ok i1 a =>
      by_cases h3 : i1.frag.length = i.frag.length
      · simp [pmany0Go, h2, h3] at h
      · simp only [pmany0Go, h2, h3, if_false, ite_false] at h
        refine ih i1 (a :: acc) r xs h ?_
        intro x hx
        rcases List.mem_cons.mp hx with h4 | h4
        · exact h4 ▸ hp i i1 a h2
        · exact hacc x h4
    | error e =>
      simp only [pmany0Go, h2, PResult.ok.injEq] at h
      obtain ⟨-, h2b⟩ := h
      subst h2b
      simpa using hacc
    | failure e => simp [pmany0Go, h2] at h

theorem pres_pmany0 {α : Type} {p : P α} {Q : α → Prop} (hp : Pres p Q) :
    Pres (pmany0 p) (fun xs => ∀ x ∈ xs, Q x) := by
  intro i r xs h
  exact pres_pmany0Go hp _ i [] r xs h (by intro x hx; cases hx)

theorem pres_pmany1Go {α : Type} {p : P α} {Q : α → Prop} (hp : Pres p Q) :
    ∀ (fuel : Nat) (i : Input) (acc : List α) (r : Input) (xs : List α),
      pmany1Go p fuel i acc = .ok r xs → (∀ x ∈ acc, Q x) → ∀ x ∈ xs, Q x := by
  intro fuel
  induction fuel with
  | zero =>
    intro i acc r xs h hacc
    simp only [pmany1Go, PResult.ok.injEq] at h
    obtain ⟨-, h2⟩ := h
    subst h2
    simpa using hacc
  | succ f ih =>
    intro i acc r xs h hacc
    cases h2 : p i with
    | ok i1 a =>
      by_cases h3 : i1.frag.length = i.frag.length
      · simp [pmany1Go, h2, h3] at h
      · simp only [pmany1Go, h2, h3, if_false, ite_false] at h
        refine ih i1 (a :: acc) r xs h ?_
        intro x hx
        rcases List.mem_cons.mp hx with h4 | h4
        · exact h4 ▸ hp i i1 a h2
        · exact hacc x h4
    | error e =>
      simp only [pmany1Go, h2, PResult.ok.injEq] at h
      obtain ⟨-, h2b⟩ := h
      subst h2b
      simpa using hacc
    | failure e => simp [pmany1Go, h2] at h

theorem pres_pmany1 {α : Type} {p : P α} {Q : α → Prop} (hp : Pres p Q) :
    Pres (pmany1 p) (fun xs => ∀ x ∈ xs, Q x) := by
  intro i r xs h
  cases h2 : p i with
  | ok i1 a =>
    simp only [pmany1, h2] at h
    refine pres_pmany1Go hp _ i1 [a] r xs h ?_
    intro x hx
    rcases List.mem_singleton.mp hx with h4
    exact h4 ▸ hp i i1 a h2
  | error e => simp [pmany1, h2] at h
  | failure e => simp [pmany1, h2] at h

theorem pres_psepGo {α β : Type} {sep : P β} {p : P α} {Q : α → Prop}
    (hp : Pres p Q) :
    ∀ (fuel : Nat) (i : Input) (acc : List α) (r : Input) (xs : List α),
      psepGo sep p fuel i acc = .ok r xs → (∀ x ∈ acc, Q x) → ∀ x ∈ xs, Q x := by
  intro fuel
  induction fuel with
  | zero =>
    intro i acc r xs h hacc
    simp only [psepGo, PResult.ok.injEq] at h
    obtain ⟨-, h2⟩ := h
    subst h2
    simpa using hacc
  | succ f ih =>
    intro i acc r xs h hacc
    cases h2 : sep i with
    | ok i1 b =>
      by_cases h3 : i1.frag.length = i.frag.length
      · simp [psepGo, h2, h3] at h
      · cases h4 : p i1 with
        | ok i2 a =>
          simp only [psepGo, h2, h3, h4, if_false, ite_false] at h
          refine ih i2 (a :: acc) r xs h ?_
          intro x hx
          rcases List.mem_cons.mp hx with h5 | h5
          · exact h5 ▸ hp i1 i2 a h4
          · exact hacc x h5
        | error e =>
          simp only [psepGo, h2, h3, h4, if_false, ite_false,
            PResult.ok.injEq] at h
          obtain ⟨-, h2b⟩ := h
          subst h2b
          simpa using hacc
        | failure e => simp [psepGo, h2, h3, h4] at h
    | error e =>
      simp only [psepGo, h2, PResult.ok.injEq] at h
      obtain ⟨-, h2b⟩ := h
      subst h2b
      simpa using hacc
    | failure e => simp [psepGo, h2] at h

theorem pres_psepList0 {α β : Type} {sep : P β} {p : P α} {Q : α → Prop}
    (hp : Pres p Q) : Pres (psepList0 sep p) (fun xs => ∀ x ∈ xs, Q x) := by
  intro i r xs h
  cases h2 : p i with
  | ok i1 a =>
    simp only [psepList0, h2] at h
    refine pres_psepGo hp _ i1 [a] r xs h ?_
    intro x hx
    rcases List.mem_singleton.mp hx with h4
    exact h4 ▸ hp i i1 a h2
  | error e =>
    simp only [psepList0, h2, PResult.ok.injEq] at h
    obtain ⟨-, h2b⟩ := h
    subst h2b
    intro x hx; cases hx
  | failure e => simp [psepList0, h2] at h

theorem pallConsuming_ok_inv {α : Type} {p : P α} {i r : Input} {a : α}
    (h : pallConsuming p i = .ok r a) : p i = .ok r a := by
  cases h2 : p i with
  | ok r2 a2 =>
    by_cases h3 : r2.frag.isEmpty
    · simp only [pallConsuming, h2, h3, if_true, ite_true, PResult.ok.injEq] at h
      obtain ⟨h4, h5⟩ := h
      rw [h4, h5]
    · simp [pallConsuming, h2, h3] at h
  | error e => simp [pallConsuming, h2] at h
  | failure e => simp [pallConsuming, h2] at h

theorem pres_identifier :
    Pres Identifier.parse (fun id => id.notReservedB = true) := by
  intro i r id h
  simp [Identifier.notReservedB, identifier_parse_not_reserved i r id h]

theorem pres_psepPair {α β γ : Type} {p : P α} {sep : P β} {q : P γ}
    {Q : α → Prop} {R : γ → Prop} (hp : Pres p Q) (hq : Pres q R) :
    Pres (psepPair p sep q) (fun x => Q x.1 ∧ R x.2) := by
  refine pres_pmap (pres_pthen hp (pres_pthen (pres_true sep) hq)) _ ?_
  intro a ha
  exact ⟨ha.1, ha.2.2⟩

theorem pres_parameter :
    Pres Parameter.parse (fun pa => pa.noReservedB = true) := by
  refine pres_pcontext (pres_pmap (pres_psepPair pres_identifier pres_identifier)
    _ ?_) _
  intro a ha
  simp [Parameter.noReservedB, ha.1, ha.2]

theorem exprsNoReserved_of_all (xs : List Expression)
    (h : ∀ x ∈ xs, exprNoReserved x = true) : exprsNoReserved xs = true := by
  induction xs with
  | nil => rfl
  | cons e es ih =>
    simp only [exprsNoReserved, Bool.and_eq_true]
    exact ⟨h e (by simp), ih (fun x hx => h x (by simp [hx]))⟩

theorem assignsNoReserved_of_all (xs : List Assignment)
    (h : ∀ x ∈ xs, assignNoReserved x = true) : assignsNoReserved xs = true := by
  induction xs with
  | nil => rfl
  | cons a rest ih =>
    simp only [assignsNoReserved, Bool.and_eq_true]
    exact ⟨h a (by simp), ih (fun x hx => h x (by simp [hx]))⟩

theorem pres_pbracketed {α : Type} {p : P α} {Q : α → Prop} (hp : Pres p Q) :
    Pres (pbracketed p) Q := by
  refine pres_pmap (pres_pthen (pres_true (pchar '('))
    (pres_pthen hp (pres_true (pchar ')')))) _ ?_
  intro a ha
  exact ha.2.1

theorem pres_assignmentP {pexp : P Expression}
    (hp : Pres pexp (fun e => exprNoReserved e = true)) :
    Pres (assignmentP pexp) (fun a => assignNoReserved a = true) := by
  refine pres_pcontext (pres_pmap (pres_pthen pres_identifier
    (pres_pthen (pres_true (ptag " = ")) hp)) _ ?_) _
  intro a ha
  simp [assignNoReserved, ha.1, ha.2.2]

theorem pres_arithmeticP {pexp : P Expression}
    (hp : Pres pexp (fun e => exprNoReserved e = true)) :
    Pres (arithmeticP pexp) (fun e => exprNoReserved e = true) := by
  refine pres_pcontext (pres_pmap (pres_pbracketed
    (pres_pthen hp (pres_pthen
      (pres_true (pdelimited (pchar ' ') Operator.parse (pchar ' '))) hp))) _ ?_) _
  intro a ha
  simp [exprNoReserved, ha.1, ha.2.2]

theorem pres_fnInvocationP {pexp : P Expression}
    (hp : Pres pexp (fun e => exprNoReserved e = true)) :
    Pres (fnInvocationP pexp) (fun fi => fnInvNoReserved fi = true) := by
  refine pres_pcontext (pres_pmap (pres_pthen pres_identifier
    (pres_pthen (pres_true (pchar '('))
      (pres_pthen (pres_psepList0 hp) (pres_true (pchar ')'))))) _ ?_) _
  intro a ha
  simp [fnInvNoReserved, ha.1, exprsNoReserved_of_all a.2.2.1 ha.2.2.1]

theorem pres_letInP {pexp : P Expression}
    (hp : Pres pexp (fun e => exprNoReserved e = true)) :
    Pres (letInP pexp) (fun e => exprNoReserved e = true) := by
  refine pres_pcontext (pres_pmap (pres_pthen (pres_true (ptag "let"))
    (pres_pthen (pres_true pnewline)
      (pres_pthen (pres_pmany1 (pres_pthen (pres_true pmultispace0)
        (pres_pthen (pres_assignmentP hp) (pres_true pnewline))))
        (pres_pthen (pres_true (pterminated (ppreceded pmultispace0 (ptag "in"))
          pmultispace0)) hp)))) _ ?_) _
  intro a ha
  have hbinds : assignsNoReserved (a.2.2.1.map (fun g => g.2.1)) = true := by
    refine assignsNoReserved_of_all _ ?_
    intro x hx
    obtain ⟨g, hg, hgx⟩ := List.mem_map.mp hx
    exact hgx ▸ (ha.2.2.1 g hg).2.1
  simp [exprNoReserved, hbinds, ha.2.2.2.2]

theorem pres_expression_parseF :
    ∀ f : Nat, Pres (Expression.parseF f) (fun e => exprNoReserved e = true) := by
  intro f
  induction f with
  | zero => intro i r a h; cases h
  | succ f ih =>
    refine pres_pcontext (pres_palt ?_) _
    intro p hp
    simp only [List.mem_cons, List.mem_singleton, List.not_mem_nil, or_false] at hp
    rcases hp with h | h | h | h | h <;> subst h
    · exact pres_arithmeticP ih
    · intro i r e he
      obtain ⟨chars, -, hres⟩ :=
        (pmapRes_ok_iff _ _ i r e).mp ((pcontext_ok_iff _ _ i r e).mp he)
      cases h4 : parseU64 (chars.filter Char.isDigit) with
      | ok n => simp only [h4, Except.ok.injEq] at hres; subst hres; rfl
      | error msg => simp [h4] at hres
    · exact pres_letInP ih
    · refine pres_pmap (pres_fnInvocationP ih) _ ?_
      intro a ha
      simpa [exprNoReserved] using ha
    · refine pres_pmap pres_identifier _ ?_
      intro a ha
      simpa [exprNoReserved] using ha

theorem pres_fnDefP {pexp : P Expression}
    (hp : Pres pexp (fun e => exprNoReserved e = true)) :
    Pres (fnDefP pexp) (fun f => f.noReservedB = true) := by
  refine pres_pcontext (pres_pmap
    (pres_pthen (pres_pcontext pres_identifier _)
      (pres_pthen (pres_true _)
        (pres_pthen (pres_pcontext (pres_pbracketed
            (pres_pthen (pres_pcontext (pres_psepList0 pres_parameter) _)
              (pres_pthen (pres_true _) pres_identifier))) _)
          (pres_pthen (pres_true _)
            (pres_pcontext hp _))))) _ ?_) _
  intro a ha
  obtain ⟨h1, -, ⟨hps, -, hret⟩, -, hbody⟩ := ha
  have hall : a.2.2.1.1.all Parameter.noReservedB = true :=
    List.all_eq_true.mpr hps
  simp [FnDef.noReservedB, h1, hall, hret, hbody]

/-- C4: an input whose maximal leading identifier-shaped span is exactly a
reserved keyword makes the identifier production fail; consequently, in every
AST produced by a successful parse, no identifier (function name, parameter
name, type name, binding name, or name reference) equals `let` or `in`. -/
theorem c4_reserved_identifiers :
    (∀ i : Input,
        i.frag.takeWhile isAlphabetic ≠ [] →
        (identSpan i.frag = "let".data ∨ identSpan i.frag = "in".data) →
        (Identifier.parse i).isErr = true) ∧
    (∀ (src : String) (rem : Input) (ast : AbstractSyntaxTree),
        parse src = .ok (rem, ast) → ast.noReservedB = true) := by
  constructor
  · intro i ha hkw
    have hres : isReservedFrag (identSpan i.frag) = true := by
      rcases hkw with h | h <;> simp [isReservedFrag, RESERVED_KEYWORDS, h]
    rw [identifier_parse_reserved i ha hres]
    rfl
  · intro src rem ast h
    have h2 : AbstractSyntaxTree.parse (Input.new src) = .ok rem ast := by
      cases h3 : AbstractSyntaxTree.parse (Input.new src) with
      | ok r a =>
        simp only [parse, h3, Except.ok.injEq, Prod.mk.injEq] at h
        rw [h.1, h.2]
      | error e => simp [parse, h3] at h
      | failure e => simp [parse, h3] at h
    simp only [AbstractSyntaxTree.parse] at h2
    have h4 := (pcontext_ok_iff _ _ _ _ _).mp h2
    obtain ⟨fns, h5, h6⟩ := (pmap_ok_iff _ _ _ _ _).mp h4
    have h7 := pallConsuming_ok_inv h5
    have h8 := pres_pmany0 (pres_fnDefP (pres_expression_parseF _)) _ _ _ h7
    subst h6
    simpa [AbstractSyntaxTree.noReservedB, List.all_eq_true] using h8

set_option maxHeartbeats 8000000 in
/-- Witness for C4: the identifier production fails on the exact keyword `let`,
and the successfully parsed program `f = ( -> T) => 1` contains no reserved
identifier. -/
theorem c4_witness :
    (Identifier.parse (Input.new "let")).isErr = true ∧
    ∃ rem ast, parse "f = ( -> T) => 1" = .ok (rem, ast) ∧
      ast.noReservedB = true := by
  refine ⟨c4_reserved_identifiers.1 (Input.new "let") (by decide)
    (Or.inl (by decide)), ?_⟩
  refine ⟨_, _, rfl, c4_reserved_identifiers.2 "f = ( -> T) => 1" _ _ rfl⟩

theorem arithmeticP_head_error (p : P Expression) (i : Input) (c : Char)
    (t : List Char) (hf : i.frag = c :: t) (hc : c ≠ '(') :
    arithmeticP p i = .error [(i, .char '('), (i, .context "arithmetic")] := by
  simp [arithmeticP, pcontext, pmap, pbracketed, pthen, pchar, hf, hc]

theorem parseNum_head_error (i : Input) (c : Char) (t : List Char)
    (hf : i.frag = c :: t) (hc : c ∉ ("0123456789_").data) :
    Expression.parseNum i =
      .error [(i, .nom .oneOf), (i, .nom .many1), (i, .context "number")] := by
  simp [Expression.parseNum, pcontext, pmapRes, pmany1, poneOf, hf, hc]

theorem identifier_ok_head_alpha (i m : Input) (idv : Identifier)
    (hid : Identifier.parse i = .ok m idv) :
    ∃ c t, i.frag = c :: t ∧ isAlphabetic c = true := by
  by_cases ha : i.frag.takeWhile isAlphabetic = []
  · rw [identifier_parse_no_alpha i ha] at hid; cases hid
  · cases hf : i.frag with
    | nil => rw [hf] at ha; simp at ha
    | cons c t =>
      refine ⟨c, t, rfl, ?_⟩
      by_contra hc
      have hc2 : isAlphabetic c = false := by
        revert hc; cases isAlphabetic c <;> simp
      rw [hf] at ha
      simp [List.takeWhile_cons, hc2] at ha

theorem letin_prefix_reserved (i : Input) (t4 : List Char)
    (hf : i.frag = 'l' :: 'e' :: 't' :: '\n' :: t4) :
    Identifier.parse i = .error [(i, .nom .mapRes), (i, .context "identifier")] := by
  have hl : isAlphabetic 'l' = true := by decide
  have he : isAlphabetic 'e' = true := by decide
  have ht : isAlphabetic 't' = true := by decide
  have hn : isAlphabetic '\n' = false := by decide
  have hn2 : isAlphanumeric '\n' = false := by decide
  have htw : i.frag.takeWhile isAlphabetic = ['l', 'e', 't'] := by
    rw [hf]
    simp [List.takeWhile_cons, hl, he, ht, hn]
  have hspan : identSpan i.frag = ['l', 'e', 't'] := by
    unfold identSpan
    rw [htw, hf]
    simp [List.takeWhile_cons, hn2]
  have hres : isReservedFrag (identSpan i.frag) = true := by
    rw [hspan]; decide
  exact identifier_parse_reserved i (by rw [htw]; simp) hres

theorem letInP_error_of_ident_ok (p : P Expression) (i m : Input)
    (idv : Identifier) (hid : Identifier.parse i = .ok m idv) :
    ∃ e, letInP p i = .error e := by
  by_cases hpre : "let".data.isPrefixOf i.frag
  · obtain ⟨rest, hrest⟩ := List.isPrefixOf_iff_prefix.mp hpre
    have hf : i.frag = 'l' :: 'e' :: 't' :: rest := by rw [← hrest]; rfl
    have htag : ptag "let" i = .ok (i.advance 3) (i.span 3) := by
      simp [ptag, hpre]
    have hadv : (i.advance 3).frag = rest := by
      rw [Input.advance_frag, hf]; rfl
    cases hrest2 : rest with
    | nil =>
      refine ⟨[(i.advance 3, .char '\n'), (i, .context "let-in")], ?_⟩
      have hnl : pnewline (i.advance 3) = .error [(i.advance 3, .char '\n')] := by
        simp [pnewline, pchar, hadv, hrest2]
      simp [letInP, pcontext, pmap, pthen, htag, hnl]
    | cons c4 t4 =>
      by_cases hc4 : c4 = '\n'
      · subst hc4
        subst hrest2
        exact absurd hid (by rw [letin_prefix_reserved i t4 hf]; intro hh; cases hh)
      · refine ⟨[(i.advance 3, .char '\n'), (i, .context "let-in")], ?_⟩
        have hnl : pnewline (i.advance 3) = .error [(i.advance 3, .char '\n')] := by
          simp [pnewline, pchar, hadv, hrest2, hc4]
        simp [letInP, pcontext, pmap, pthen, htag, hnl]
  · refine ⟨[(i, .nom .tag), (i, .context "let-in")], ?_⟩
    have htag : ptag "let" i = .error [(i, .nom .tag)] := by
      simp [ptag, hpre]
    simp [letInP, pcontext, pmap, pthen, htag]

/-- C2: the expression production tries its alternatives in the fixed order
arithmetic, number, let-in, invocation, bare name; whenever the function
invocation production succeeds, the expression production returns that
invocation (never the bare identifier that is its prefix). -/
theorem c2_invocation_priority :
    ∀ (i rem : Input) (inv : FnInvocation),
      FnInvocation.parse i = .ok rem inv →
      Expression.parse i = .ok rem (Expression.fnInvocation inv) := by
  intro i rem inv h
  have h0 : fnInvocationP (Expression.parseF i.frag.length) i = .ok rem inv := h
  have hidok : ∃ m idv, Identifier.parse i = .ok m idv := by
    have h1 := (pcontext_ok_iff _ _ _ _ _).mp h0
    obtain ⟨x, hx, -⟩ := (pmap_ok_iff _ _ _ _ _).mp h1
    obtain ⟨m, hm, -⟩ := (pthen_ok_iff _ _ _ _ _).mp hx
    exact ⟨m, x.1, hm⟩
  obtain ⟨m, idv, hid⟩ := hidok
  obtain ⟨c, t, hf, hc⟩ := identifier_ok_head_alpha i m idv hid
  have hcpar : c ≠ '(' := by
    intro hh; subst hh; simp [isAlphabetic] at hc
  have hcdig : c ∉ ("0123456789_").data := by
    intro hmem
    have hall : ∀ d ∈ ("0123456789_").data, isAlphabetic d = false := by decide
    rw [hall c hmem] at hc
    cases hc
  have hA := arithmeticP_head_error (Expression.parseF i.frag.length) i c t hf hcpar
  have hN := parseNum_head_error i c t hf hcdig
  obtain ⟨eL, hL⟩ :=
    letInP_error_of_ident_ok (Expression.parseF i.frag.length) i m idv hid
  have hI : pmap (fnInvocationP (Expression.parseF i.frag.length))
      Expression.fnInvocation i = .ok rem (Expression.fnInvocation inv) := by
    simp [pmap, h0]
  show Expression.parseF (i.frag.length + 1) i = .ok rem (Expression.fnInvocation inv)
  simp only [Expression.parseF, pcontext, palt]
  rw [paltGo_step_error _ _ _ _ _ hA, paltGo_step_error _ _ _ _ _ hN,
    paltGo_step_error _ _ _ _ _ hL, paltGo_step_ok _ _ _ _ _ _ hI]

set_option maxHeartbeats 8000000 in
/-- Witness for C2 at the invocation `f(1)`. -/
theorem c2_witness :
    Expression.parse (Input.new "f(1)") =
      .ok ⟨"f(1)".data, [], 1⟩
        (Expression.fnInvocation
          (FnInvocation.mk ⟨⟨[], "f".data, 1⟩⟩ [Expression.number 1])) :=
  c2_invocation_priority (Input.new "f(1)") ⟨"f(1)".data, [], 1⟩
    (FnInvocation.mk ⟨⟨[], "f".data, 1⟩⟩ [Expression.number 1]) (by rfl)

theorem pmany1Go_oneOf_all (cs : String) :
    ∀ (s : List Char) (fuel : Nat) (i : Input) (acc : List Char),
      i.frag = s → (∀ c ∈ s, c ∈ cs.data) → s.length ≤ fuel →
      pmany1Go (poneOf cs) fuel i acc = .ok (i.advance s.length) (acc.reverse ++ s) := by
  intro s
  induction s with
  | nil =>
    intro fuel i acc hf hall hlen
    cases fuel with
    | zero => simp [pmany1Go, Input.advance_zero]
    | succ f =>
      have h1 : poneOf cs i = .error [(i, .nom .oneOf)] := by
        simp [poneOf, hf]
      simp [pmany1Go, h1, Input.advance_zero]
  | cons c t ih =>
    intro fuel i acc hf hall hlen
    cases fuel with
    | zero => simp at hlen
    | succ f =>
      have h1 : poneOf cs i = .ok (i.advance 1) c := by
        simp [poneOf, hf, hall c (by simp)]
      have h2 : (i.advance 1).frag = t := by
        rw [Input.advance_frag, hf]; rfl
      have h3 : (i.advance 1).frag.length ≠ i.frag.length := by
        rw [h2, hf]; simp
      have h4 := ih f (i.advance 1) (c :: acc) h2
        (fun d hd => hall d (by simp [hd])) (by simpa using hlen)
      simp only [pmany1Go, h1, h3, if_false, ite_false, h4,
        Input.advance_advance, List.reverse_cons, List.append_assoc,
        List.singleton_append, List.length_cons]
      rw [Nat.add_comm]

theorem pmany1_oneOf_all (cs : String) (s : List Char) (i : Input)
    (hf : i.frag = s) (hne : s ≠ []) (hall : ∀ c ∈ s, c ∈ cs.data) :
    pmany1 (poneOf cs) i = .ok (i.advance s.length) s := by
  cases s with
  | nil => exact absurd rfl hne
  | cons c t =>
    have h1 : poneOf cs i = .ok (i.advance 1) c := by
      simp [poneOf, hf, hall c (by simp)]
    have h2 : (i.advance 1).frag = t := by
      rw [Input.advance_frag, hf]; rfl
    have h4 := pmany1Go_oneOf_all cs t ((i.advance 1).frag.length) (i.advance 1)
      [c] h2 (fun d hd => hall d (by simp [hd])) (by rw [h2])
    simp only [pmany1, h1, h4, Input.advance_advance,
      List.reverse_cons, List.reverse_nil, List.nil_append,
      List.singleton_append, List.length_cons]
    rw [Nat.add_comm]

/-- C3: for every string of digits and underscores, the number production
consumes it entirely; with at least one digit and a value below `2^64` it
returns that value (underscores ignored); it fails on overflow and on
all-underscore input. -/
theorem c3_number_production :
    ∀ s : List Char, s ≠ [] → (∀ c ∈ s, c ∈ ("0123456789_").data) →
      ((∃ c ∈ s, c.isDigit = true) →
          natOfDigits (s.filter Char.isDigit) < 2 ^ 64 →
          Expression.parseNum ⟨[], s, 1⟩ =
            .ok ⟨s, [], 1⟩
              (Expression.number (natOfDigits (s.filter Char.isDigit)))) ∧
      (2 ^ 64 ≤ natOfDigits (s.filter Char.isDigit) →
          (Expression.parseNum ⟨[], s, 1⟩).isErr = true) ∧
      ((∀ c ∈ s, c = '_') → (Expression.parseNum ⟨[], s, 1⟩).isErr = true) := by
  intro s hne hall
  have hm := pmany1_oneOf_all "0123456789_" s ⟨[], s, 1⟩ rfl hne hall
  have hadv : (Input.mk [] s 1).advance s.length = ⟨s, [], 1⟩ := by
    have hnl : (s.filter (fun c => c = '\n')).length = 0 := by
      simp only [List.length_eq_zero, List.filter_eq_nil_iff,
        decide_eq_true_eq]
      intro c hc hcn
      subst hcn
      have h6 := hall _ hc
      revert h6
      decide
    simp [Input.advance, hnl, List.take_length]
  rw [hadv] at hm
  refine ⟨?_, ?_, ?_⟩
  · intro hdig hlt
    have hfe : s.filter Char.isDigit ≠ [] := by
      obtain ⟨c, hc, hcd⟩ := hdig
      exact List.ne_nil_of_mem (List.mem_filter.mpr ⟨hc, hcd⟩)
    have hp : parseU64 (s.filter Char.isDigit) =
        .ok (natOfDigits (s.filter Char.isDigit)) := by
      have hfe2 : (s.filter Char.isDigit).isEmpty = false := by
        cases h4 : s.filter Char.isDigit with
        | nil => exact absurd h4 hfe
        | cons d ds => rfl
      simp only [parseU64, hfe2, Bool.false_eq_true, if_false, ite_false]
      rw [if_pos hlt]
    simp [Expression.parseNum, pcontext, pmapRes, hm, hp]
  · intro hge
    have hp : parseU64 (s.filter Char.isDigit) =
        .error "number too large to fit in target type" := by
      have hfe2 : (s.filter Char.isDigit).isEmpty = false := by
        cases h4 : s.filter Char.isDigit with
        | nil =>
          rw [h4] at hge
          simp [natOfDigits] at hge
        | cons d ds => rfl
      have hnlt : ¬ natOfDigits (s.filter Char.isDigit) < 2 ^ 64 :=
        Nat.not_lt.mpr hge
      simp only [parseU64, hfe2, Bool.false_eq_true, if_false, ite_false]
      rw [if_neg hnlt]
    simp [Expression.parseNum, pcontext, pmapRes, hm, hp, PResult.isErr]
  · intro hund
    have hfil : s.filter Char.isDigit = [] := by
      rw [List.filter_eq_nil_iff]
      intro c hc
      rw [hund c hc]
      decide
    have hp : parseU64 (s.filter Char.isDigit) =
        .error "cannot parse integer from empty string" := by
      simp [parseU64, hfil]
    simp [Expression.parseNum, pcontext, pmapRes, hm, hp, PResult.isErr]

/-- Witness for C3 at the numeral `1_2`, which parses to 12. -/
theorem c3_witness :
    Expression.parseNum ⟨[], "1_2".data, 1⟩ =
      .ok ⟨"1_2".data, [], 1⟩
        (Expression.number (natOfDigits ("1_2".data.filter Char.isDigit))) :=
  (c3_number_production "1_2".data (by decide) (by decide)).1
    ⟨'1', by decide⟩ (by decide)

theorem paltGo_all_error {α : Type} (i : Input) :
    ∀ (ps : List (P α)) (acc : VError),
      (∀ p ∈ ps, ∃ e, p i = .error e) →
      ∃ e, paltGo i ps acc = .error e := by
  intro ps
  induction ps with
  | nil => intro acc h; exact ⟨acc ++ [(i, .nom .alt)], by simp [paltGo]⟩
  | cons p ps ih =>
    intro acc h
    obtain ⟨e, he⟩ := h p (by simp)
    rw [paltGo_step_error p ps i acc e he]
    exact ih e (fun q hq => h q (by simp [hq]))

set_option maxHeartbeats 8000000 in
/-- C7 counterexample: on `let\n    x = 1\n` (committed past `let` + newline,
then no `in`), the let-in branch fails only recoverably, and the expression
alternation does fall through and run the remaining alternatives on the
original input: the reported failure of the whole expression production is the
reserved-keyword error of the bare-identifier alternative at the original
input, and no entry of the chain mentions the let-in production. -/
theorem c7_counterexample :
    Expression.parse (Input.new "let\n    x = 1\n") =
      .error [(Input.new "let\n    x = 1\n", .nom .mapRes),
              (Input.new "let\n    x = 1\n", .context "identifier"),
              (Input.new "let\n    x = 1\n", .nom .alt),
              (Input.new "let\n    x = 1\n", .context "expression")] ∧
    (Expression.parseLetIn (Input.new "let\n    x = 1\n")).isErr = true ∧
    ∀ p ∈ [(Input.new "let\n    x = 1\n", ErrKind.nom .mapRes),
           (Input.new "let\n    x = 1\n", ErrKind.context "identifier"),
           (Input.new "let\n    x = 1\n", ErrKind.nom .alt),
           (Input.new "let\n    x = 1\n", ErrKind.context "expression")],
      p.2 ≠ ErrKind.context "let-in" := by
  exact ⟨by rfl, by rfl, by decide⟩

/-- C7 amended: after the let-in production has committed past `let` + newline
and then fails (for instance because `in` is missing), the expression
alternation does fall through and try function invocation and bare identifier
on the original input — there is no fatal/cut mechanism in the grammar — but
both necessarily fail, because the leading identifier-shaped span of such an
input is the reserved keyword `let`; hence the expression production as a
whole still fails. -/
theorem c7_amended :
    ∀ (i : Input) (t : List Char),
      i.frag = 'l' :: 'e' :: 't' :: '\n' :: t →
      (Expression.parseLetIn i).isErr = true →
      (Expression.parse i).isErr = true ∧
      (FnInvocation.parse i).isErr = true ∧
      (Identifier.parse i).isErr = true := by
  intro i t hf hletin
  have hid := letin_prefix_reserved i t hf
  have hInv : ∀ p : P Expression, fnInvocationP p i =
      .error [(i, .nom .mapRes), (i, .context "identifier"),
              (i, .context "function invocation")] := by
    intro p
    simp [fnInvocationP, pcontext, pmap, pthen, hid]
  obtain ⟨eL, hL⟩ : ∃ e, letInP (Expression.parseF i.frag.length) i = .error e := by
    cases hcase : letInP (Expression.parseF i.frag.length) i with
    | ok r a =>
      have h2 : (Expression.parseLetIn i).isErr = false := by
        show (letInP (Expression.parseF i.frag.length) i).isErr = false
        rw [hcase]; rfl
      rw [h2] at hletin; cases hletin
    | error e => exact ⟨e, rfl⟩
    | failure e =>
      exact absurd hcase (noFail_letInP (noFail_expression_parseF _) i e)
  have hall : ∀ p ∈ [arithmeticP (Expression.parseF i.frag.length),
      Expression.parseNum,
      letInP (Expression.parseF i.frag.length),
      pmap (fnInvocationP (Expression.parseF i.frag.length))
        Expression.fnInvocation,
      pmap Identifier.parse Expression.name], ∃ e, p i = .error e := by
    intro p hp
    simp only [List.mem_cons, List.mem_singleton, List.not_mem_nil, or_false] at hp
    rcases hp with h | h | h | h | h <;> subst h
    · exact ⟨_, arithmeticP_head_error _ i 'l' _ hf (by decide)⟩
    · exact ⟨_, parseNum_head_error i 'l' _ hf (by decide)⟩
    · exact ⟨eL, hL⟩
    · exact ⟨[(i, .nom .mapRes), (i, .context "identifier"),
        (i, .context "function invocation")], by simp [pmap, hInv]⟩
    · exact ⟨[(i, .nom .mapRes), (i, .context "identifier")], by simp [pmap, hid]⟩
  obtain ⟨e, he⟩ := paltGo_all_error i _ [] hall
  have hout : Expression.parse i = .error (e ++ [(i, .context "expression")]) := by
    show Expression.parseF (i.frag.length + 1) i = _
    have hpalt : palt [arithmeticP (Expression.parseF i.frag.length),
        Expression.parseNum,
        letInP (Expression.parseF i.frag.length),
        pmap (fnInvocationP (Expression.parseF i.frag.length))
          Expression.fnInvocation,
        pmap Identifier.parse Expression.name] i = .error e := he
    simp only [Expression.parseF]
    simp [pcontext, hpalt]
  refine ⟨by rw [hout]; rfl, ?_, by rw [hid]; rfl⟩
  show (fnInvocationP (Expression.parseF i.frag.length) i).isErr = true
  rw [hInv]
  rfl

set_option maxHeartbeats 8000000 in
/-- Witness for C7 amended at the input `let\n    x = 1\n`. -/
theorem c7_witness :
    (Expression.parse (Input.new "let\n    x = 1\n")).isErr = true ∧
    (FnInvocation.parse (Input.new "let\n    x = 1\n")).isErr = true ∧
    (Identifier.parse (Input.new "let\n    x = 1\n")).isErr = true :=
  c7_amended (Input.new "let\n    x = 1\n") "    x = 1\n".data (by rfl) (by rfl)
